import Mathlib

/-!
Verification of the semantic chunking utilities of the nebari-docs-rag
repository (`src/utils/chunking.py`).

The Python code is shallowly embedded over `List Char`.  Python string
primitives (`split`, `replace`, `strip`, `startswith`, `in`) are modelled
by executable Lean functions with the same semantics, and each regex used
by the source (`^(#{2,3})\s+(.+)$`, `!?\[([^\]]+)\]\(([^\)]+)\)`,
`^import\s+.+$`, `<(\w+)[^>]*>(.*?)</\1>`, `<\w+[^>]*/>`, `\x7b[^\x7d]+\x7d`)
is compiled to a deterministic matcher that reproduces the backtracking
behaviour of Python's `re` on those particular patterns (greedy runs over a
character class never backtrack past the excluded character; the only real
backtracking, in `\s+(.+)$` at end of input and in the `\w+` before a
backreferenced closing tag, is resolved explicitly below).  Scanners that
advance by a matched length use a fuel argument (`input length + 1` at the
wrapper) so that everything reduces in the kernel; fuel can never be
exhausted because every step consumes at least one character.
-/

/-- Characters of a string literal, the carrier type of the embedding. -/
def str (s : String) : List Char := s.data

/-- ASCII whitespace recognised by Python's `str.strip` / `\s`. -/
def isPySpace (c : Char) : Bool :=
  c == ' ' || c == '\t' || c == '\n' || c == '\r' || c == '\x0b' || c == '\x0c'

/-- Python `str.lstrip()`. -/
def pyLStrip (l : List Char) : List Char := l.dropWhile isPySpace

/-- Python `str.rstrip()`. -/
def pyRStrip (l : List Char) : List Char := (l.reverse.dropWhile isPySpace).reverse

/-- Python `str.strip()`. -/
def pyStrip (l : List Char) : List Char := pyRStrip (pyLStrip l)

/-- Leftmost occurrence of `pat` in `s`: returns the part before the
occurrence and the part after it. -/
def findSub (pat : List Char) : List Char → Option (List Char × List Char)
  | [] => if pat.isPrefixOf [] then some ([], []) else none
  | c :: rest =>
    if pat.isPrefixOf (c :: rest) then some ([], (c :: rest).drop pat.length)
    else
      match findSub pat rest with
      | some (b, a) => some (c :: b, a)
      | none => none

/-- Python `pat in s` for strings. -/
def containsSub (pat s : List Char) : Bool := (findSub pat s).isSome

/-- Python `s.split(sep, maxsplit)`; `none` is an unbounded maxsplit.
Fuelled: each recursive step consumes at least one character of `s`
whenever `sep` is nonempty, so fuel `s.length + 1` is always enough. -/
def pySplitF (sep : List Char) : Nat → Option Nat → List Char → List (List Char)
  | 0, _, s => [s]
  | _ + 1, some 0, s => [s]
  | fuel + 1, ms, s =>
    match findSub sep s with
    | none => [s]
    | some (b, a) => b :: pySplitF sep fuel (ms.map (fun n => n - 1)) a

/-- Python `s.split(sep, maxsplit)`. -/
def pySplit (sep : List Char) (ms : Option Nat) (s : List Char) : List (List Char) :=
  pySplitF sep (s.length + 1) ms s

/-- Python `s.replace(old, new)`: all occurrences, scanning left to right,
never rescanning the replacement. -/
def pyReplaceF (old new : List Char) : Nat → List Char → List Char
  | 0, s => s
  | fuel + 1, s =>
    match findSub old s with
    | none => s
    | some (b, a) => b ++ new ++ pyReplaceF old new fuel a

/-- Python `s.replace(old, new)`. -/
def pyReplace (old new s : List Char) : List Char :=
  pyReplaceF old new (s.length + 1) s

/-- A frontmatter / metadata value: the YAML scalars and the integers the
chunker adds (`chunk_index`, `heading_level`). -/
inductive MVal where
  | s (v : List Char)
  | n (v : Nat)
deriving DecidableEq, Repr

/-- A Python dict with string keys, as an insertion-ordered association
list with unique keys (the invariant Python dicts maintain). -/
abbrev Meta := List (List Char × MVal)

/-- Python `d[k]` lookup (first, hence only, binding of `k`). -/
def dget (m : Meta) (k : List Char) : Option MVal :=
  (m.find? (fun p => p.1 == k)).map (fun p => p.2)

/-- Python `{**m, k: v}`: replace the binding of `k` in place if present,
else append it, preserving insertion order. -/
def dset (m : Meta) (k : List Char) (v : MVal) : Meta :=
  if m.any (fun p => p.1 == k) then
    m.map (fun p => if p.1 == k then (k, v) else p)
  else m ++ [(k, v)]

/-- Rendering of a value inside a Python f-string. -/
def mvalStr : MVal → List Char
  | .s v => v
  | .n v => Nat.toDigits 10 v

/-- `metadata.get("title", "Document")` — the raw value. -/
def titleVal (m : Meta) : MVal :=
  (dget m (str "title")).getD (MVal.s (str "Document"))

/-- `metadata.get("title", "Document")` rendered in an f-string. -/
def getTitle (m : Meta) : List Char := mvalStr (titleVal m)

/-- `extract_frontmatter` (chunking.py lines 9-32).  The YAML parser is an
external collaborator, passed in as `parse`: `Except.error` models a raised
`yaml.YAMLError`, `Except.ok none` models a falsy parse result (absorbed by
`or {}` in the source). -/
def extract_frontmatter (parse : List Char → Except Unit (Option Meta))
    (content : List Char) : Meta × List Char :=
  if (str "---").isPrefixOf content then
    let parts := pySplit (str "---") (some 2) content
    if 3 ≤ parts.length then
      match parse (parts.getD 1 []) with
      | .ok r => (r.getD [], pyStrip (parts.getD 2 []))
      | .error _ => ([], content)
    else ([], content)
  else ([], content)

/-- Nonempty run of characters excluded from a regex character class,
stopping at the excluded character: `[^x]+` followed by the literal `x`. -/
def isWordChar (c : Char) : Bool := c == '_' || c.isAlpha || c.isDigit

/-- The `\[([^\]]+)\]\(([^\)]+)\)` part of the link regex, anchored at the
head of the input: returns (label, url, matched length). -/
def matchBracketPart : List Char → Option (List Char × List Char × Nat)
  | [] => none
  | c :: rest =>
    if c = '[' then
      let t := rest.takeWhile (fun c => c != ']')
      if t.length = 0 then none
      else
        match rest.drop t.length with
        | ']' :: '(' :: rest2 =>
          let u := rest2.takeWhile (fun c => c != ')')
          if u.length = 0 then none
          else
            match rest2.drop u.length with
            | ')' :: _ => some (t, u, 1 + t.length + 2 + u.length + 1)
            | _ => none
        | _ => none
    else none

/-- `link_url.endswith((".png", ".jpg", ".jpeg", ".gif", ".svg"))` or the
other image conditions of `replace_link` (chunking.py lines 71-73). -/
def isImageUrl (isBang : Bool) (url : List Char) : Bool :=
  isBang || containsSub (str "/img/") url ||
    (str ".png").isSuffixOf url || (str ".jpg").isSuffixOf url ||
    (str ".jpeg").isSuffixOf url || (str ".gif").isSuffixOf url ||
    (str ".svg").isSuffixOf url

/-- URL cleaning of the image branch of `replace_link` (lines 74-81). -/
def cleanImg (url : List Char) : List Char :=
  let c1 := pyReplace (str "../") [] url
  let c2 := pyReplace (str "./") [] c1
  let c3 := if (str "/").isPrefixOf c2 then c2.drop 1 else c2
  if (str "img/").isPrefixOf c3 then c3
  else pyReplace (str "static/img/") (str "img/") c3

/-- URL cleaning of the documentation branch of `replace_link` (lines 82-87). -/
def cleanDocs (url : List Char) : List Char :=
  let c1 := pyReplace (str "../") [] url
  let c2 := pyReplace (str "./") [] c1
  let c3 := pyReplace (str "/docs/") [] c2
  if (str "/").isPrefixOf c3 then c3.drop 1 else c3

/-- `replace_link` (chunking.py lines 56-90).  `isBang` records whether the
match started with `!` (`match.group(0).startswith("!")`). -/
def replace_link (isBang : Bool) (text url : List Char) : List Char :=
  let bang : List Char := if isBang then str "!" else []
  if (str "http://").isPrefixOf url || (str "https://").isPrefixOf url then
    bang ++ str "[" ++ text ++ str "](" ++ url ++ str ")"
  else if (str "#").isPrefixOf url then
    bang ++ str "[" ++ text ++ str "](" ++ url ++ str ")"
  else
    let absolute_url :=
      if isImageUrl isBang url then str "https://nebari.dev/" ++ cleanImg url
      else str "https://nebari.dev/docs/" ++ cleanDocs url
    bang ++ str "[" ++ text ++ str "](" ++ absolute_url ++ str ")"

/-- One attempt of `!?\[([^\]]+)\]\(([^\)]+)\)` at the head of the input,
already substituted through `replace_link`: (replacement, matched length).
When the input starts with `!` but the bracket part fails, the bang-less
alternative also fails (`\[` cannot match `!`). -/
def matchLinkAt (s : List Char) : Option (List Char × Nat) :=
  match s with
  | [] => none
  | c :: rest =>
    if c = '!' then
      match matchBracketPart rest with
      | some (t, u, len) => some (replace_link true t u, 1 + len)
      | none => none
    else
      match matchBracketPart (c :: rest) with
      | some (t, u, len) => some (replace_link false t u, len)
      | none => none

/-- `re.sub` scan for the link pattern. -/
def convertAux : Nat → List Char → List Char
  | 0, s => s
  | _ + 1, [] => []
  | fuel + 1, c :: rest =>
    match matchLinkAt (c :: rest) with
    | some (rep, len) => rep ++ convertAux fuel ((c :: rest).drop len)
    | none => c :: convertAux fuel rest

/-- `convert_relative_links_to_absolute` (chunking.py lines 35-93). -/
def convert_relative_links_to_absolute (content : List Char) : List Char :=
  convertAux (content.length + 1) content

/-- Anchored match of `\s+(.+)$` (no DOTALL, so `.` excludes `'\n'`;
`$` matches at a `'\n'` or at the end): returns (the `.+` group, matched
length).  `\s+` is greedy; when the input is whitespace to the end the
engine backtracks the run one character at a time until `.` can match,
skipping any trailing `'\n'` run, and needs at least one character left
in `\s+` — exactly the `2 ≤ m` case below. -/
def matchWsDotPlus (rest : List Char) : Option (List Char × Nat) :=
  let W := rest.takeWhile isPySpace
  if W.length = 0 then none
  else
    match rest.drop W.length with
    | [] =>
      let m := W.length - (W.reverse.takeWhile (fun c => c == '\n')).length
      if 2 ≤ m then some ([W.getD (m - 1) ' '], m) else none
    | c :: r =>
      some (c :: r.takeWhile (fun c => c != '\n'),
        W.length + 1 + (r.takeWhile (fun c => c != '\n')).length)

/-- Anchored match of `(#{2,3})\s+(.+)$` at a line start: returns
(heading level, raw title group, matched length).  With four or more
`'#'` characters both greedy choices of `#{2,3}` leave a `'#'` in front
of `\s+`, so the match fails. -/
def matchHeaderAt (s : List Char) : Option (Nat × List Char × Nat) :=
  let k := (s.takeWhile (fun c => c == '#')).length
  if k = 2 ∨ k = 3 then
    match matchWsDotPlus (s.drop k) with
    | some (t, len) => some (k, t, k + len)
    | none => none
  else none

/-- A located H2/H3 heading (chunking.py lines 137-143). -/
structure Header where
  level : Nat
  title : List Char
  start : Nat
deriving DecidableEq, Repr

/-- `header_pattern.finditer` scan: `^` (MULTILINE) restricts match
attempts to position 0 and positions right after a `'\n'`; a match never
ends with `'\n'`, so scanning resumes in mid-line state. -/
def findHeadersAux : Nat → List Char → Nat → Bool → List Header
  | 0, _, _, _ => []
  | _ + 1, [], _, _ => []
  | fuel + 1, c :: rest, pos, atStart =>
    if atStart then
      match matchHeaderAt (c :: rest) with
      | some (lvl, rawTitle, len) =>
        ⟨lvl, pyStrip rawTitle, pos⟩ ::
          findHeadersAux fuel ((c :: rest).drop len) (pos + len) false
      | none => findHeadersAux fuel rest (pos + 1) (c == '\n')
    else findHeadersAux fuel rest (pos + 1) (c == '\n')

/-- All H2/H3 headings of the document with their offsets. -/
def findHeaders (s : List Char) : List Header :=
  findHeadersAux (s.length + 1) s 0 true

/-- End offset of section `i`: the next heading's start, or the end of the
document (chunking.py line 158). -/
def sectionEnd (md : List Char) (headers : List Header) (i : Nat) : Nat :=
  match headers.get? (i + 1) with
  | some h2 => h2.start
  | none => md.length

/-- `markdown_content[start:end].strip()` for section `i` (line 160). -/
def sectionContent (md : List Char) (headers : List Header) (i : Nat)
    (h : Header) : List Char :=
  pyStrip ((md.drop h.start).take (sectionEnd md headers i - h.start))

/-- `{**metadata, "heading": ..., "chunk_index": i, "heading_level": ...}`
(chunking.py lines 166-171). -/
def sectionMeta (metadata : Meta) (h : Header) (i : Nat) : Meta :=
  dset (dset (dset metadata (str "heading") (MVal.s h.title))
      (str "chunk_index") (MVal.n i))
    (str "heading_level") (MVal.n h.level)

/-- `f"**{title}**\n\n{header_title}\n\n"`: the re-splitting buffer seed
(chunking.py lines 179 and 188). -/
def chunkSeed (title htitle : List Char) : List Char :=
  str "**" ++ title ++ str "**\n\n" ++ htitle ++ str "\n\n"

/-- The paragraph re-splitting loop of an oversized section (chunking.py
lines 178-194): `seed` is `f"**{title}**\n\n{header_title}\n\n"`, the
second list argument is the running buffer `current_chunk`. -/
def paraLoop (seed : List Char) (mcs : Nat) (cm : Meta) :
    List (List Char) → List Char → List (List Char × Meta)
  | [], current =>
    if (pyStrip current).length = 0 then [] else [(pyStrip current, cm)]
  | para :: rest, current =>
    if mcs < current.length / 4 + para.length / 4 then
      (pyStrip current, cm) :: paraLoop seed mcs cm rest (seed ++ para ++ str "\n\n")
    else paraLoop seed mcs cm rest (current ++ para ++ str "\n\n")

/-- The chunks contributed by section `i` (chunking.py lines 155-196):
one chunk, or the paragraph re-split when the estimated token count
`len(chunk_text) // 4` exceeds `max_chunk_size`. -/
def sectionChunks (md : List Char) (metadata : Meta) (mcs : Nat)
    (headers : List Header) (i : Nat) (h : Header) : List (List Char × Meta) :=
  let section_content := sectionContent md headers i h
  let title := getTitle metadata
  let chunk_text := str "**" ++ title ++ str "**\n\n" ++ section_content
  let cm := sectionMeta metadata h i
  if mcs < chunk_text.length / 4 then
    paraLoop (chunkSeed title h.title) mcs cm
      (pySplit (str "\n\n") none section_content)
      (chunkSeed title h.title)
  else [(chunk_text, cm)]

/-- `for i, header in enumerate(headers)` over the tail `hs`, with `i` the
index of its head. -/
def sectionsLoop (md : List Char) (metadata : Meta) (mcs : Nat)
    (headers : List Header) : Nat → List Header → List (List Char × Meta)
  | _, [] => []
  | i, h :: hs =>
    sectionChunks md metadata mcs headers i h ++
      sectionsLoop md metadata mcs headers (i + 1) hs

/-- `chunk_by_headers` (chunking.py lines 96-198).  The `overlap`
parameter is accepted, as in the source, and never read. -/
def chunk_by_headers (markdown_content : List Char) (metadata : Meta)
    (max_chunk_size : Nat) (overlap : Nat) : List (List Char × Meta) :=
  let md := convert_relative_links_to_absolute markdown_content
  let headers := findHeaders md
  if headers = [] then
    [(str "**" ++ getTitle metadata ++ str "**\n\n" ++ md,
      dset (dset metadata (str "heading") (titleVal metadata))
        (str "chunk_index") (MVal.n 0))]
  else sectionsLoop md metadata max_chunk_size headers 0 headers

/-- Anchored match of `^import\s+.+$` at a line start: matched length. -/
def matchImportAt (s : List Char) : Option Nat :=
  if (str "import").isPrefixOf s then
    match matchWsDotPlus (s.drop 6) with
    | some (_, len) => some (6 + len)
    | none => none
  else none

/-- `re.sub(r"^import\s+.+$", "", content, flags=re.MULTILINE)` scan. -/
def subImportsAux : Nat → List Char → Bool → List Char
  | 0, s, _ => s
  | _ + 1, [], _ => []
  | fuel + 1, c :: rest, atStart =>
    if atStart then
      match matchImportAt (c :: rest) with
      | some len => subImportsAux fuel ((c :: rest).drop len) false
      | none => c :: subImportsAux fuel rest (c == '\n')
    else c :: subImportsAux fuel rest (c == '\n')

/-- Import-statement removal (chunking.py line 217). -/
def subImports (s : List Char) : List Char := subImportsAux (s.length + 1) s true

/-- Search for the closing tag `</W>` where `W` ranges over the prefixes
of the greedy `\w+` run `w`, longest first (the backtracking of `\w+`
against the backreference `\1`); `tail` is the input after the first `'>'`
and `headLen` the length matched up to and including that `'>'`.  The lazy
`(.*?)` with DOTALL picks the first occurrence of the closing tag. -/
def tryCloser (w tail : List Char) (headLen : Nat) : Nat → Option (List Char × Nat)
  | 0 => none
  | k + 1 =>
    let closer := '<' :: '/' :: (w.take (k + 1) ++ ['>'])
    match findSub closer tail with
    | some (before, _) => some (before, headLen + before.length + closer.length)
    | none => tryCloser w tail headLen k

/-- Anchored match of `<(\w+)[^>]*>(.*?)</\1>` (DOTALL): returns
(the content group `\2`, i.e. the replacement, and the matched length).
Since `[^>]*` excludes `'>'`, the `'>'` consumed is forced to be the first
`'>'` after the tag name. -/
def matchTagAt (s : List Char) : Option (List Char × Nat) :=
  match s with
  | [] => none
  | c :: rest =>
    if c = '<' then
      let w := rest.takeWhile isWordChar
      if w.length = 0 then none
      else
        let pre := rest.takeWhile (fun c => c != '>')
        match rest.drop pre.length with
        | '>' :: tail => tryCloser w tail (2 + pre.length) w.length
        | _ => none
    else none

/-- One `re.sub` pass of the paired-tag pattern. -/
def subTagsAux : Nat → List Char → List Char
  | 0, s => s
  | _ + 1, [] => []
  | fuel + 1, c :: rest =>
    match matchTagAt (c :: rest) with
    | some (rep, len) => rep ++ subTagsAux fuel ((c :: rest).drop len)
    | none => c :: subTagsAux fuel rest

/-- One `re.sub` pass of `<(\w+)[^>]*>(.*?)</\1>` replaced by `\2`. -/
def subTags (s : List Char) : List Char := subTagsAux (s.length + 1) s

/-- The fixed-point loop of chunking.py lines 222-228: up to `n` passes,
stopping early when a pass changes nothing. -/
def iterTags : Nat → List Char → List Char
  | 0, c => c
  | n + 1, c =>
    let c' := subTags c
    if c' = c then c else iterTags n c'

/-- Anchored match of `<\w+[^>]*/>`: succeeds exactly when the character
before the first `'>'` after the (nonempty) tag-name run is `'/'`.
Returns the matched length. -/
def matchSelfCloseAt : List Char → Option Nat
  | [] => none
  | c :: rest =>
    if c = '<' then
      if (rest.takeWhile isWordChar).length = 0 then none
      else
        let pre := rest.takeWhile (fun c => c != '>')
        match rest.drop pre.length with
        | '>' :: _ => if pre.getLast? = some '/' then some (2 + pre.length) else none
        | _ => none
    else none

/-- `re.sub(r"<\w+[^>]*/>", "", content)` scan. -/
def subSelfCloseAux : Nat → List Char → List Char
  | 0, s => s
  | _ + 1, [] => []
  | fuel + 1, c :: rest =>
    match matchSelfCloseAt (c :: rest) with
    | some len => subSelfCloseAux fuel ((c :: rest).drop len)
    | none => c :: subSelfCloseAux fuel rest

/-- Self-closing component removal (chunking.py line 231). -/
def subSelfClose (s : List Char) : List Char := subSelfCloseAux (s.length + 1) s

/-- Anchored match of `\x7b[^\x7d]+\x7d`: matched length. -/
def matchBraceAt : List Char → Option Nat
  | [] => none
  | c :: rest =>
    if c = '\x7b' then
      let t := rest.takeWhile (fun c => c != '\x7d')
      if t.length = 0 then none
      else
        match rest.drop t.length with
        | _ :: _ => some (2 + t.length)
        | [] => none
    else none

/-- `re.sub` scan removing `\x7b...\x7d` interpolation expressions. -/
def subBracesAux : Nat → List Char → List Char
  | 0, s => s
  | _ + 1, [] => []
  | fuel + 1, c :: rest =>
    match matchBraceAt (c :: rest) with
    | some len => subBracesAux fuel ((c :: rest).drop len)
    | none => c :: subBracesAux fuel rest

/-- Brace-expression removal (chunking.py line 234). -/
def subBraces (s : List Char) : List Char := subBracesAux (s.length + 1) s

/-- `strip_mdx_components` (chunking.py lines 201-236). -/
def strip_mdx_components (content : List Char) : List Char :=
  pyStrip (subBraces (subSelfClose (iterTags 10 (subImports content))))

/-! ### Generic helper lemmas about the string primitives -/

theorem dropWhile_append_mid {p : Char → Bool} (a : List Char) {c : Char}
    (b : List Char) (hc : p c = false) :
    (a ++ c :: b).dropWhile p = a.dropWhile p ++ c :: b := by
  induction a with
  | nil => simp [List.dropWhile_cons, hc]
  | cons x xs ih =>
    by_cases hx : p x
    · simpa [List.dropWhile_cons, hx] using ih
    · simp [List.dropWhile_cons, hx]

theorem pyRStrip_append_last {c : Char} (hc : isPySpace c = false) (a b : List Char) :
    pyRStrip (a ++ c :: b) = a ++ c :: pyRStrip b := by
  unfold pyRStrip
  rw [List.reverse_append, List.reverse_cons,
    show (b.reverse ++ [c]) ++ a.reverse = b.reverse ++ c :: a.reverse by simp,
    dropWhile_append_mid _ _ hc]
  simp

theorem pyLStrip_cons_keep {c : Char} (hc : isPySpace c = false) (l : List Char) :
    pyLStrip (c :: l) = c :: l := by
  simp [pyLStrip, List.dropWhile_cons, hc]

theorem pyRStrip_widen (a b : List Char) : pyRStrip a <+: pyRStrip (a ++ b) := by
  unfold pyRStrip
  rw [List.reverse_append, List.dropWhile_append]
  split
  · exact List.prefix_refl _
  · rw [List.reverse_append, List.reverse_reverse]
    have h1 : (List.dropWhile isPySpace a.reverse).reverse <+: a.reverse.reverse :=
      ( List.reverse_prefix).mpr (List.dropWhile_suffix _)
    rw [List.reverse_reverse] at h1
    exact h1.trans (List.prefix_append _ _)

theorem pyRStrip_last_not_space (l : List Char) (h : pyRStrip l ≠ []) :
    ∃ q c, pyRStrip l = q ++ [c] ∧ isPySpace c = false := by
  unfold pyRStrip at h ⊢
  rcases hd : List.dropWhile isPySpace l.reverse with _ | ⟨c, z⟩
  · simp [hd] at h
  · refine ⟨z.reverse, c, by simp [hd], ?_⟩
    have := List.head_dropWhile_not isPySpace l.reverse (by simp [hd])
    simpa [hd] using this

theorem pyStrip_last_not_space (l : List Char) (h : pyStrip l ≠ []) :
    ∃ q c, pyStrip l = q ++ [c] ∧ isPySpace c = false :=
  pyRStrip_last_not_space _ h

/-! ### Python dict lemmas -/

theorem find?_map_dset (k1 k2 : List Char) (v : MVal) (h : (k1 == k2) = false)
    (m : Meta) :
    (m.map (fun p => if p.1 == k1 then (k1, v) else p)).find?
        (fun p => p.1 == k2) =
      m.find? (fun p => p.1 == k2) := by
  induction m with
  | nil => rfl
  | cons p t ih =>
    by_cases hp : (p.1 == k1) = true
    · have hpk : p.1 = k1 := by simpa using hp
      simp only [List.map_cons, hp, if_true]
      rw [List.find?_cons_of_neg _ (by simp [h]),
        List.find?_cons_of_neg _ (by simp [hpk, h]), ih]
    · rw [List.map_cons, if_neg hp, List.find?_cons, List.find?_cons, ih]

theorem dget_dset_diff {k1 k2 : List Char} (v : MVal) (h : (k1 == k2) = false)
    (m : Meta) : dget (dset m k1 v) k2 = dget m k2 := by
  unfold dget dset
  split
  · rw [find?_map_dset _ _ _ h]
  · rw [List.find?_append]
    have h2 : List.find? (fun p => p.1 == k2) [(k1, v)] = none := by simp [h]
    rw [h2, Option.or_none]

theorem dget_dset_same (m : Meta) (k : List Char) (v : MVal) :
    dget (dset m k v) k = some v := by
  induction m with
  | nil => simp [dget, dset]
  | cons p t ih =>
    by_cases hp : (p.1 == k) = true
    · have hpk : p.1 = k := by simpa using hp
      simp only [dset, List.any_cons, hp, Bool.true_or, if_true, List.map_cons,
        dget]
      rw [List.find?_cons_of_pos _ (by simp)]
      rfl
    · have hpf : (p.1 == k) = false := Bool.eq_false_iff.mpr hp
      by_cases ht : (t.any fun q => q.1 == k) = true
      · have hset : dset (p :: t) k v = p :: dset t k v := by
          unfold dset
          rw [List.any_cons, hpf, Bool.false_or, ht, if_pos rfl, if_pos rfl,
            List.map_cons, if_neg hp]
        rw [hset]
        unfold dget
        rw [List.find?_cons_of_neg _ (by simpa using hp)]
        exact ih
      · have htf : (t.any fun q => q.1 == k) = false := Bool.eq_false_iff.mpr ht
        have hset : dset (p :: t) k v = p :: (t ++ [(k, v)]) := by
          unfold dset
          rw [List.any_cons, hpf, Bool.false_or, htf]
          simp
        have hset' : dset t k v = t ++ [(k, v)] := by
          unfold dset
          rw [htf]
          simp
        rw [hset]
        rw [hset'] at ih
        unfold dget
        rw [List.find?_cons_of_neg _ (by simpa using hp)]
        exact ih

/-! ### Chunk metadata lemmas -/

theorem dget_sectionMeta_heading (m : Meta) (h : Header) (i : Nat) :
    dget (sectionMeta m h i) (str "heading") = some (MVal.s h.title) := by
  unfold sectionMeta
  rw [dget_dset_diff _ (by decide), dget_dset_diff _ (by decide), dget_dset_same]

theorem dget_sectionMeta_ci (m : Meta) (h : Header) (i : Nat) :
    dget (sectionMeta m h i) (str "chunk_index") = some (MVal.n i) := by
  unfold sectionMeta
  rw [dget_dset_diff _ (by decide), dget_dset_same]

theorem dget_sectionMeta_hl (m : Meta) (h : Header) (i : Nat) :
    dget (sectionMeta m h i) (str "heading_level") = some (MVal.n h.level) :=
  dget_dset_same _ _ _

/-! ### Lemmas about the bold title prefix surviving `strip` -/

theorem pyStrip_bold (t s : List Char) :
    pyStrip (str "**" ++ t ++ str "**" ++ s) =
      str "**" ++ t ++ str "**" ++ pyRStrip s := by
  have hA : str "**" = ['*', '*'] := rfl
  unfold pyStrip
  have e1 : str "**" ++ t ++ str "**" ++ s = '*' :: ('*' :: (t ++ (str "**" ++ s))) := by
    simp [hA]
  have e2 : str "**" ++ t ++ str "**" ++ s = (str "**" ++ t ++ ['*']) ++ '*' :: s := by
    simp [hA]
  rw [e1, pyLStrip_cons_keep (by decide), ← e1, e2,
    pyRStrip_append_last (by decide)]
  simp [hA]

theorem bold_isPre (t s : List Char) :
    str "**" ++ t ++ str "**" <+: pyStrip (str "**" ++ t ++ str "**" ++ s) := by
  rw [pyStrip_bold]
  exact ⟨pyRStrip s, by simp⟩

/-! ### Lemmas about the paragraph re-splitting loop -/

theorem paraLoop_meta (seed : List Char) (mcs : Nat) (cm : Meta) :
    ∀ ps cur c, c ∈ paraLoop seed mcs cm ps cur → c.2 = cm := by
  intro ps
  induction ps with
  | nil =>
    intro cur c hc
    simp only [paraLoop] at hc
    split at hc
    · simp at hc
    · rw [List.mem_singleton] at hc
      rw [hc]
  | cons p rest ih =>
    intro cur c hc
    simp only [paraLoop] at hc
    split at hc
    · rcases List.mem_cons.mp hc with hh | ht
      · rw [hh]
      · exact ih _ c ht
    · exact ih _ c hc

theorem paraLoop_src (seed : List Char) (mcs : Nat) (cm : Meta) :
    ∀ ps r c, c ∈ paraLoop seed mcs cm ps (seed ++ r) →
      ∃ q, c.1 = pyStrip (seed ++ q) := by
  intro ps
  induction ps with
  | nil =>
    intro r c hc
    simp only [paraLoop] at hc
    split at hc
    · simp at hc
    · rw [List.mem_singleton] at hc
      exact ⟨r, by rw [hc]⟩
  | cons p rest ih =>
    intro r c hc
    simp only [paraLoop] at hc
    split at hc
    · rcases List.mem_cons.mp hc with hh | ht
      · exact ⟨r, by rw [hh]⟩
      · exact ih (p ++ str "\n\n") c (by simpa [List.append_assoc] using ht)
    · exact ih (r ++ (p ++ str "\n\n")) c (by simpa [List.append_assoc] using hc)

theorem paraLoop_ne_nil (seed : List Char) (mcs : Nat) (cm : Meta)
    (hne : ∀ x, (pyStrip (seed ++ x)).length ≠ 0) :
    ∀ ps r, paraLoop seed mcs cm ps (seed ++ r) ≠ [] := by
  intro ps
  induction ps with
  | nil =>
    intro r
    simp only [paraLoop]
    rw [if_neg (hne r)]
    simp
  | cons p rest ih =>
    intro r
    simp only [paraLoop]
    split
    · simp
    · have := ih (r ++ (p ++ str "\n\n"))
      simpa [List.append_assoc] using this

/-! ### Lemmas about section chunking -/

theorem chunkSeed_split (t ht : List Char) :
    chunkSeed t ht =
      str "**" ++ t ++ str "**" ++ (str "\n\n" ++ (ht ++ str "\n\n")) := by
  unfold chunkSeed
  rw [show str "**\n\n" = str "**" ++ str "\n\n" from rfl]
  simp

theorem pyStrip_chunkSeed_pos (t ht x : List Char) :
    (pyStrip (chunkSeed t ht ++ x)).length ≠ 0 := by
  have he : chunkSeed t ht ++ x =
      str "**" ++ t ++ str "**" ++ ((str "\n\n" ++ (ht ++ str "\n\n")) ++ x) := by
    simp [chunkSeed_split]
  rw [he, pyStrip_bold]
  have h2 : (str "**").length = 2 := rfl
  simp [List.length_append, h2]

theorem sectionChunks_meta (md : List Char) (m : Meta) (mcs : Nat)
    (headers : List Header) (i : Nat) (h : Header) :
    ∀ c ∈ sectionChunks md m mcs headers i h, c.2 = sectionMeta m h i := by
  intro c hc
  simp only [sectionChunks] at hc
  split at hc
  · exact paraLoop_meta _ _ _ _ _ c hc
  · rw [List.mem_singleton] at hc
    rw [hc]

theorem sectionChunks_ne_nil (md : List Char) (m : Meta) (mcs : Nat)
    (headers : List Header) (i : Nat) (h : Header) :
    sectionChunks md m mcs headers i h ≠ [] := by
  simp only [sectionChunks]
  split
  · have := paraLoop_ne_nil (chunkSeed (getTitle m) h.title) mcs
      (sectionMeta m h i) (fun x => pyStrip_chunkSeed_pos _ _ x)
      (pySplit (str "\n\n") none (sectionContent md headers i h)) []
    simpa using this
  · simp

theorem sectionChunks_bold (md : List Char) (m : Meta) (mcs : Nat)
    (headers : List Header) (i : Nat) (h : Header) :
    ∀ c ∈ sectionChunks md m mcs headers i h,
      str "**" ++ getTitle m ++ str "**" <+: c.1 := by
  intro c hc
  simp only [sectionChunks] at hc
  split at hc
  · have hc' : c ∈ paraLoop (chunkSeed (getTitle m) h.title) mcs
        (sectionMeta m h i)
        (pySplit (str "\n\n") none (sectionContent md headers i h))
        (chunkSeed (getTitle m) h.title ++ []) := by simpa using hc
    rcases paraLoop_src _ _ _ _ [] c hc' with ⟨q, hq⟩
    have he : chunkSeed (getTitle m) h.title ++ q =
        str "**" ++ getTitle m ++ str "**" ++
          ((str "\n\n" ++ (h.title ++ str "\n\n")) ++ q) := by
      simp [chunkSeed_split]
    rw [hq, he]
    exact bold_isPre _ _
  · rw [List.mem_singleton] at hc
    rw [hc]
    exact ⟨str "\n\n" ++ sectionContent md headers i h, by
      rw [show str "**\n\n" = str "**" ++ str "\n\n" from rfl]
      simp⟩

theorem sectionChunks_seedStrip (md : List Char) (m : Meta) (mcs : Nat)
    (headers : List Header) (i : Nat) (h : Header)
    (hbig : mcs < (str "**" ++ getTitle m ++ str "**\n\n" ++
      sectionContent md headers i h).length / 4) :
    ∀ c ∈ sectionChunks md m mcs headers i h,
      pyStrip (chunkSeed (getTitle m) h.title) <+: c.1 := by
  intro c hc
  simp only [sectionChunks] at hc
  rw [if_pos hbig] at hc
  have hc' : c ∈ paraLoop (chunkSeed (getTitle m) h.title) mcs
      (sectionMeta m h i)
      (pySplit (str "\n\n") none (sectionContent md headers i h))
      (chunkSeed (getTitle m) h.title ++ []) := by simpa using hc
  rcases paraLoop_src _ _ _ _ [] c hc' with ⟨q, hq⟩
  rw [hq]
  have hl : pyLStrip (chunkSeed (getTitle m) h.title ++ q) =
      chunkSeed (getTitle m) h.title ++ q := by
    rw [chunkSeed_split]
    have : str "**" ++ getTitle m ++ str "**" ++ (str "\n\n" ++ (h.title ++ str "\n\n")) ++ q =
        '*' :: ('*' :: (getTitle m ++ (str "**" ++ (str "\n\n" ++ (h.title ++ str "\n\n")) ++ q))) := by
      rw [show str "**" = ['*', '*'] from rfl]
      simp
    rw [this, pyLStrip_cons_keep (by decide), ← this]
  have hl2 : pyLStrip (chunkSeed (getTitle m) h.title) =
      chunkSeed (getTitle m) h.title := by
    rw [chunkSeed_split]
    have : str "**" ++ getTitle m ++ str "**" ++ (str "\n\n" ++ (h.title ++ str "\n\n")) =
        '*' :: ('*' :: (getTitle m ++ (str "**" ++ (str "\n\n" ++ (h.title ++ str "\n\n"))))) := by
      rw [show str "**" = ['*', '*'] from rfl]
      simp
    rw [this, pyLStrip_cons_keep (by decide), ← this]
  unfold pyStrip
  rw [hl, hl2]
  exact pyRStrip_widen _ _

theorem sectionsLoop_mem (md : List Char) (m : Meta) (mcs : Nat)
    (headers : List Header) :
    ∀ (hs : List Header) (j i : Nat) (h : Header) (c : List Char × Meta),
      hs.get? i = some h → c ∈ sectionChunks md m mcs headers (j + i) h →
      c ∈ sectionsLoop md m mcs headers j hs := by
  intro hs
  induction hs with
  | nil => intro j i h c hg; simp at hg
  | cons hd tl ih =>
    intro j i h c hg hc
    cases i with
    | zero =>
      rw [List.get?_cons_zero, Option.some_inj] at hg
      subst hg
      simp only [sectionsLoop]
      exact List.mem_append_left _ (by simpa using hc)
    | succ i' =>
      rw [List.get?_cons_succ] at hg
      simp only [sectionsLoop]
      refine List.mem_append_right _ (ih (j + 1) i' h c hg ?_)
      rw [show j + 1 + i' = j + (i' + 1) from by omega]
      exact hc

theorem sectionsLoop_idx (md : List Char) (m : Meta) (mcs : Nat)
    (headers : List Header) :
    ∀ (hs : List Header) (j : Nat),
      ∃ ns : List Nat, ns.length = hs.length ∧ (∀ x ∈ ns, 1 ≤ x) ∧
        (sectionsLoop md m mcs headers j hs).map
            (fun c => dget c.2 (str "chunk_index")) =
          ((List.range' j hs.length).zip ns).flatMap
            (fun p => List.replicate p.2 (some (MVal.n p.1))) := by
  intro hs
  induction hs with
  | nil => intro j; exact ⟨[], rfl, by simp, by simp [sectionsLoop]⟩
  | cons hd tl ih =>
    intro j
    rcases ih (j + 1) with ⟨ns, h1, h2, h3⟩
    refine ⟨(sectionChunks md m mcs headers j hd).length :: ns, by simp [h1], ?_, ?_⟩
    · intro x hx
      rcases List.mem_cons.mp hx with rfl | hx'
      · have := sectionChunks_ne_nil md m mcs headers j hd
        exact Nat.one_le_iff_ne_zero.mpr (by simpa using this)
      · exact h2 x hx'
    · simp only [sectionsLoop, List.map_append, h3, List.length_cons,
        List.range'_succ, List.zip_cons_cons, List.flatMap_cons]
      congr 1
      rw [List.eq_replicate_iff]
      refine ⟨by simp, ?_⟩
      intro b hb
      rcases List.mem_map.mp hb with ⟨c, hc, rfl⟩
      rw [sectionChunks_meta md m mcs headers j hd c hc, dget_sectionMeta_ci]

theorem sectionsLoop_bold (md : List Char) (m : Meta) (mcs : Nat)
    (headers : List Header) :
    ∀ (hs : List Header) (j : Nat) (c : List Char × Meta),
      c ∈ sectionsLoop md m mcs headers j hs →
      str "**" ++ getTitle m ++ str "**" <+: c.1 := by
  intro hs
  induction hs with
  | nil => intro j c hc; simp [sectionsLoop] at hc
  | cons hd tl ih =>
    intro j c hc
    simp only [sectionsLoop] at hc
    rcases List.mem_append.mp hc with hl | hr
    · exact sectionChunks_bold md m mcs headers j hd c hl
    · exact ih (j + 1) c hr

/-! ### The claims -/

/-- C7: every chunk text produced by `chunk_by_headers`, on every path
(no-headings case, per-section case, and paragraph re-split case), begins
with the document title wrapped in bold markers, i.e. the prefix
`**{title}**`. -/
theorem claim_C7 (content : List Char) (meta : Meta) (mcs o : Nat)
    (c : List Char × Meta) (hc : c ∈ chunk_by_headers content meta mcs o) :
    str "**" ++ getTitle meta ++ str "**" <+: c.1 := by
  simp only [chunk_by_headers] at hc
  split at hc
  · rw [List.mem_singleton] at hc
    rw [hc]
    exact ⟨str "\n\n" ++ convert_relative_links_to_absolute content, by
      rw [show str "**\n\n" = str "**" ++ str "\n\n" from rfl]
      simp⟩
  · exact sectionsLoop_bold _ _ _ _ _ _ c hc

/-- Witness for C7 at a concrete document. -/
theorem claim_C7_witness :
    str "**" ++ getTitle [(str "title", MVal.s (str "T"))] ++ str "**" <+:
      ((str "**T**\n\nhello",
        ([(str "title", MVal.s (str "T")), (str "heading", MVal.s (str "T")),
          (str "chunk_index", MVal.n 0)] : Meta)) : List Char × Meta).1 :=
  claim_C7 (str "hello") [(str "title", MVal.s (str "T"))] 800 100 _ (by decide)

/-- C2: the `overlap` parameter has no effect on the output of
`chunk_by_headers`: the function never reads it, so any two overlap values
give identical chunk lists (no trailing content is carried between
re-split buffers). -/
theorem claim_C2 (content : List Char) (meta : Meta) (mcs o1 o2 : Nat) :
    chunk_by_headers content meta mcs o1 = chunk_by_headers content meta mcs o2 := rfl

/-- C8: a document whose (link-absolutized) text contains no level-2 or
level-3 headings yields exactly one chunk spanning the whole document,
title-prefixed, with metadata equal to the document metadata plus
`heading` set to the document title value and `chunk_index` 0; in
particular an empty document yields one chunk containing only the title
prefix. -/
theorem claim_C8 :
    (∀ (content : List Char) (meta : Meta) (mcs o : Nat),
      findHeaders (convert_relative_links_to_absolute content) = [] →
      chunk_by_headers content meta mcs o =
        [(str "**" ++ getTitle meta ++ str "**\n\n" ++
            convert_relative_links_to_absolute content,
          dset (dset meta (str "heading") (titleVal meta))
            (str "chunk_index") (MVal.n 0))]) ∧
    chunk_by_headers [] [(str "title", MVal.s (str "T"))] 800 100 =
      [(str "**T**\n\n",
        [(str "title", MVal.s (str "T")), (str "heading", MVal.s (str "T")),
          (str "chunk_index", MVal.n 0)])] := by
  constructor
  · intro content meta mcs o hh
    simp only [chunk_by_headers]
    rw [hh, if_pos rfl]
  · decide

/-- Witness for C8 at a concrete heading-free document. -/
theorem claim_C8_witness :
    chunk_by_headers (str "no headings here") [(str "title", MVal.s (str "T"))]
        800 100 =
      [(str "**" ++ getTitle [(str "title", MVal.s (str "T"))] ++ str "**\n\n" ++
          convert_relative_links_to_absolute (str "no headings here"),
        dset (dset [(str "title", MVal.s (str "T"))] (str "heading")
            (titleVal [(str "title", MVal.s (str "T"))]))
          (str "chunk_index") (MVal.n 0))] :=
  claim_C8.1 (str "no headings here") _ 800 100 (by decide)

/-- Counterexample to C1 as stated: on a document whose single section is
re-split into several chunks, all those chunks carry `chunk_index` 0, so
the chunk_index values are not unique within the document's output. -/
theorem claim_C1_cex :
    ¬ ((chunk_by_headers (str "## H\n\naaaa\n\nbbbb")
          [(str "title", MVal.s (str "T"))] 1 100).map
        (fun c => dget c.2 (str "chunk_index"))).Nodup := by
  decide

/-- C1 (amended): `chunk_by_headers` assigns `chunk_index` values in
document order starting at 0 — the chunks of the `i`-th section (0-based)
all carry `chunk_index` `i`, so the values form the ordered blocks
`0 ... 0, 1 ... 1, ...` with at least one chunk per section.  The index is
unique per section, not per chunk: the chunks a single oversized section
is re-split into share their section's index. -/
theorem claim_C1_amended (content : List Char) (meta : Meta) (mcs o : Nat) :
    (findHeaders (convert_relative_links_to_absolute content) = [] →
      (chunk_by_headers content meta mcs o).map
          (fun c => dget c.2 (str "chunk_index")) =
        [some (MVal.n 0)]) ∧
    (∀ hs, findHeaders (convert_relative_links_to_absolute content) = hs →
      hs ≠ [] →
      ∃ ns : List Nat, ns.length = hs.length ∧ (∀ x ∈ ns, 1 ≤ x) ∧
        (chunk_by_headers content meta mcs o).map
            (fun c => dget c.2 (str "chunk_index")) =
          ((List.range hs.length).zip ns).flatMap
            (fun p => List.replicate p.2 (some (MVal.n p.1)))) := by
  constructor
  · intro hh
    simp only [chunk_by_headers]
    rw [hh, if_pos rfl]
    simp [dget_dset_same]
  · intro hs hhs hne
    simp only [chunk_by_headers]
    rw [hhs, if_neg hne]
    rcases sectionsLoop_idx (convert_relative_links_to_absolute content) meta mcs
      hs hs 0 with ⟨ns, h1, h2, h3⟩
    exact ⟨ns, h1, h2, by rw [h3, List.range_eq_range']⟩

/-- Witness for the amended C1 at a concrete document with one
oversized section producing four chunks. -/
theorem claim_C1_witness :
    ∃ ns : List Nat, ns.length = 1 ∧ (∀ x ∈ ns, 1 ≤ x) ∧
      (chunk_by_headers (str "## H\n\naaaa\n\nbbbb")
          [(str "title", MVal.s (str "T"))] 1 100).map
          (fun c => dget c.2 (str "chunk_index")) =
        ((List.range 1).zip ns).flatMap
          (fun p => List.replicate p.2 (some (MVal.n p.1))) :=
  (claim_C1_amended (str "## H\n\naaaa\n\nbbbb")
      [(str "title", MVal.s (str "T"))] 1 100).2
    [⟨2, str "H", 0⟩] (by decide) (by decide)

/-- C3: for every input text that begins with the 3-character frontmatter
delimiter and whose header block fails to parse (the parser raises),
`extract_frontmatter` returns an empty mapping together with the original
full input text unchanged — the header text remains embedded in the
returned body — and, being a total function, raises no error. -/
theorem claim_C3 (parse : List Char → Except Unit (Option Meta))
    (content : List Char)
    (hpre : (str "---").isPrefixOf content = true)
    (herr : 3 ≤ (pySplit (str "---") (some 2) content).length →
      parse ((pySplit (str "---") (some 2) content).getD 1 []) = .error ()) :
    extract_frontmatter parse content = ([], content) := by
  simp only [extract_frontmatter]
  rw [if_pos hpre]
  by_cases hlen : 3 ≤ (pySplit (str "---") (some 2) content).length
  · rw [if_pos hlen, herr hlen]
  · rw [if_neg hlen]

/-- Witness for C3 at a concrete malformed-frontmatter document. -/
theorem claim_C3_witness :
    extract_frontmatter (fun _ => .error ())
        (str "---\ntitle: [broken\n---\nbody text") =
      ([], str "---\ntitle: [broken\n---\nbody text") :=
  claim_C3 _ _ (by decide) (fun _ => rfl)

theorem pyLStrip_chunkSeed (t ht x : List Char) :
    pyLStrip (chunkSeed t ht ++ x) = chunkSeed t ht ++ x := by
  rw [chunkSeed_split]
  have he : str "**" ++ t ++ str "**" ++ (str "\n\n" ++ (ht ++ str "\n\n")) ++ x =
      '*' :: ('*' :: (t ++ (str "**" ++ (str "\n\n" ++ (ht ++ str "\n\n")) ++ x))) := by
    rw [show str "**" = ['*', '*'] from rfl]
    simp
  rw [he, pyLStrip_cons_keep (by decide), ← he]

theorem pySplit_whole (sep s : List Char) (hn : findSub sep s = none) :
    pySplit sep none s = [s] := by
  unfold pySplit
  simp only [pySplitF, hn]

/-- C4: a section whose chunk text has estimated token size
`len(text) // 4` greater than `max_chunk_size` is re-split by
blank-line-delimited paragraphs through the buffer loop seeded with the
bold title plus heading prefix (`chunkSeed`); the loop flushes the buffer
as a chunk whenever adding the next paragraph would exceed the budget and
flushes any non-empty remaining buffer at the end, so the section yields
at least one chunk, every resulting sub-chunk lands in the function's
output, starts with the stripped seed, and carries identical section-level
metadata: the same `heading`, `chunk_index` and `heading_level`. -/
theorem claim_C4 (content : List Char) (meta : Meta) (mcs o i : Nat)
    (h : Header) (md : List Char) (headers : List Header) (sec : List Char)
    (hmd : md = convert_relative_links_to_absolute content)
    (hhs : headers = findHeaders md)
    (hget : headers.get? i = some h)
    (hsec : sec = sectionContent md headers i h)
    (hbig : mcs < (str "**" ++ getTitle meta ++ str "**\n\n" ++ sec).length / 4) :
    sectionChunks md meta mcs headers i h =
        paraLoop (chunkSeed (getTitle meta) h.title) mcs (sectionMeta meta h i)
          (pySplit (str "\n\n") none sec) (chunkSeed (getTitle meta) h.title) ∧
      sectionChunks md meta mcs headers i h ≠ [] ∧
      (∀ c ∈ sectionChunks md meta mcs headers i h,
        c ∈ chunk_by_headers content meta mcs o ∧
          c.2 = sectionMeta meta h i ∧
          pyStrip (chunkSeed (getTitle meta) h.title) <+: c.1) ∧
      dget (sectionMeta meta h i) (str "heading") = some (MVal.s h.title) ∧
      dget (sectionMeta meta h i) (str "chunk_index") = some (MVal.n i) ∧
      dget (sectionMeta meta h i) (str "heading_level") = some (MVal.n h.level) := by
  have hbig' : mcs <
      (str "**" ++ getTitle meta ++ str "**\n\n" ++
        sectionContent md headers i h).length / 4 := by
    rw [← hsec]; exact hbig
  have hne : headers ≠ [] := by
    rcases List.get?_eq_some.mp hget with ⟨hw, _⟩
    exact List.ne_nil_of_length_pos (Nat.lt_of_le_of_lt (Nat.zero_le i) hw)
  refine ⟨?_, sectionChunks_ne_nil _ _ _ _ _ _, ?_, dget_sectionMeta_heading _ _ _,
    dget_sectionMeta_ci _ _ _, dget_sectionMeta_hl _ _ _⟩
  · simp only [sectionChunks]
    rw [if_pos hbig', hsec]
  · intro c hc
    refine ⟨?_, sectionChunks_meta _ _ _ _ _ _ c hc,
      sectionChunks_seedStrip _ _ _ _ _ _ hbig' c hc⟩
    simp only [chunk_by_headers]
    rw [← hmd, ← hhs, if_neg hne]
    have := sectionsLoop_mem md meta mcs headers headers 0 i h c hget
      (by rw [Nat.zero_add]; exact hc)
    exact this

/-- Witness for C4 at a concrete oversized section. -/
theorem claim_C4_witness :
    sectionChunks (convert_relative_links_to_absolute (str "## H\n\ncccc\n\ndddd"))
        [(str "title", MVal.s (str "T"))] 1
        (findHeaders (convert_relative_links_to_absolute (str "## H\n\ncccc\n\ndddd")))
        0 ⟨2, str "H", 0⟩ ≠ [] :=
  (claim_C4 (str "## H\n\ncccc\n\ndddd") [(str "title", MVal.s (str "T"))] 1 100 0
      ⟨2, str "H", 0⟩ _ _ _ rfl rfl (by decide) rfl (by decide)).2.1

/-- C9: `chunk_by_headers` can emit chunks whose estimated token size
exceeds `max_chunk_size`: the paragraph re-split never divides within a
blank-line-delimited paragraph, so a section that is a single paragraph
longer than `4 * max_chunk_size` characters forces an output chunk with
`len(text) // 4` greater than `max_chunk_size`. -/
theorem claim_C9 (content : List Char) (meta : Meta) (mcs o i : Nat)
    (h : Header) (md : List Char) (headers : List Header) (sec : List Char)
    (hmd : md = convert_relative_links_to_absolute content)
    (hhs : headers = findHeaders md)
    (hget : headers.get? i = some h)
    (hsec : sec = sectionContent md headers i h)
    (hone : findSub (str "\n\n") sec = none)
    (hlong : 4 * mcs < sec.length) :
    ∃ c, c ∈ chunk_by_headers content meta mcs o ∧ mcs < c.1.length / 4 := by
  have hne : headers ≠ [] := by
    rcases List.get?_eq_some.mp hget with ⟨hw, _⟩
    exact List.ne_nil_of_length_pos (Nat.lt_of_le_of_lt (Nat.zero_le i) hw)
  have hsecpos : 0 < sec.length := Nat.lt_of_le_of_lt (Nat.zero_le (4 * mcs)) hlong
  have hsecne : sec ≠ [] := List.ne_nil_of_length_pos hsecpos
  have hLsec : pyStrip ((md.drop h.start).take (sectionEnd md headers i - h.start)) =
      sec := by rw [hsec]; rfl
  rcases pyStrip_last_not_space
      ((md.drop h.start).take (sectionEnd md headers i - h.start))
      (by rw [hLsec]; exact hsecne) with ⟨q, cl, hqcl, hcl⟩
  rw [hLsec] at hqcl
  have hps : pySplit (str "\n\n") none sec = [sec] := pySplit_whole _ _ hone
  have l1 : (str "**").length = 2 := rfl
  have l2 : (str "**\n\n").length = 4 := rfl
  have l3 : (str "\n\n").length = 2 := rfl
  have hlen1 : (chunkSeed (getTitle meta) h.title).length =
      8 + (getTitle meta).length + h.title.length := by
    simp only [chunkSeed, List.length_append, l1, l2, l3]
    omega
  have hchunk : pyStrip (chunkSeed (getTitle meta) h.title ++ sec ++ str "\n\n") =
      chunkSeed (getTitle meta) h.title ++ sec := by
    have ha : chunkSeed (getTitle meta) h.title ++ sec ++ str "\n\n" =
        chunkSeed (getTitle meta) h.title ++ (sec ++ str "\n\n") := by simp
    have hb : chunkSeed (getTitle meta) h.title ++ (sec ++ str "\n\n") =
        (chunkSeed (getTitle meta) h.title ++ q) ++ cl :: str "\n\n" := by
      rw [hqcl]
      simp
    unfold pyStrip
    rw [ha, pyLStrip_chunkSeed, hb, pyRStrip_append_last hcl,
      show pyRStrip (str "\n\n") = [] from by decide, hqcl]
    simp
  have hbig : mcs < (str "**" ++ getTitle meta ++ str "**\n\n" ++
      sectionContent md headers i h).length / 4 := by
    rw [← hsec]
    have hlen : (str "**" ++ getTitle meta ++ str "**\n\n" ++ sec).length =
        2 + (getTitle meta).length + 4 + sec.length := by
      simp only [List.length_append, l1, l2]
    rw [hlen]
    omega
  have hsc : sectionChunks md meta mcs headers i h =
      paraLoop (chunkSeed (getTitle meta) h.title) mcs (sectionMeta meta h i)
        [sec] (chunkSeed (getTitle meta) h.title) := by
    simp only [sectionChunks]
    rw [if_pos hbig, ← hsec, hps]
  have hstripne : (pyStrip (chunkSeed (getTitle meta) h.title ++ sec ++
      str "\n\n")).length ≠ 0 := by
    rw [hchunk, List.length_append]
    omega
  have hnil : paraLoop (chunkSeed (getTitle meta) h.title) mcs
      (sectionMeta meta h i) []
      (chunkSeed (getTitle meta) h.title ++ sec ++ str "\n\n") =
      if (pyStrip (chunkSeed (getTitle meta) h.title ++ sec ++
          str "\n\n")).length = 0 then []
      else [(pyStrip (chunkSeed (getTitle meta) h.title ++ sec ++ str "\n\n"),
        sectionMeta meta h i)] := rfl
  have hfin : ((chunkSeed (getTitle meta) h.title ++ sec, sectionMeta meta h i) :
      List Char × Meta) ∈
      paraLoop (chunkSeed (getTitle meta) h.title) mcs (sectionMeta meta h i) []
        (chunkSeed (getTitle meta) h.title ++ sec ++ str "\n\n") := by
    rw [hnil, if_neg hstripne, List.mem_singleton, hchunk]
  have hcons : paraLoop (chunkSeed (getTitle meta) h.title) mcs
      (sectionMeta meta h i) [sec] (chunkSeed (getTitle meta) h.title) =
      if mcs < (chunkSeed (getTitle meta) h.title).length / 4 + sec.length / 4 then
        (pyStrip (chunkSeed (getTitle meta) h.title), sectionMeta meta h i) ::
          paraLoop (chunkSeed (getTitle meta) h.title) mcs (sectionMeta meta h i)
            [] (chunkSeed (getTitle meta) h.title ++ sec ++ str "\n\n")
      else paraLoop (chunkSeed (getTitle meta) h.title) mcs (sectionMeta meta h i)
        [] (chunkSeed (getTitle meta) h.title ++ sec ++ str "\n\n") := rfl
  have hmem : ((chunkSeed (getTitle meta) h.title ++ sec, sectionMeta meta h i) :
      List Char × Meta) ∈ sectionChunks md meta mcs headers i h := by
    rw [hsc, hcons]
    split
    · exact List.mem_cons_of_mem _ hfin
    · exact hfin
  refine ⟨(chunkSeed (getTitle meta) h.title ++ sec, sectionMeta meta h i),
    ?_, ?_⟩
  · simp only [chunk_by_headers]
    rw [← hmd, ← hhs, if_neg hne]
    exact sectionsLoop_mem md meta mcs headers headers 0 i h _ hget
      (by rw [Nat.zero_add]; exact hmem)
  · show mcs < (chunkSeed (getTitle meta) h.title ++ sec).length / 4
    rw [List.length_append, hlen1]
    omega

/-- Witness for C9 at a concrete single-paragraph oversized section. -/
theorem claim_C9_witness :
    ∃ c, c ∈ chunk_by_headers (str "## Hdr\nabcdefghij")
        [(str "title", MVal.s (str "T"))] 1 100 ∧ 1 < c.1.length / 4 :=
  claim_C9 (str "## Hdr\nabcdefghij") [(str "title", MVal.s (str "T"))] 1 100 0
    ⟨2, str "Hdr", 0⟩ _ _ _ rfl rfl (by decide) rfl (by decide) (by decide)

/-! ### Lemmas about the MDX scanners -/

theorem takeWhile_append_stop {p : Char → Bool} (a : List Char) {c : Char}
    (b : List Char) (ha : ∀ x ∈ a, p x = true) (hc : p c = false) :
    (a ++ c :: b).takeWhile p = a := by
  induction a with
  | nil => simp [List.takeWhile_cons, hc]
  | cons x xs ih =>
    have hx : p x = true := ha x (List.mem_cons_self x xs)
    simp only [List.cons_append, List.takeWhile_cons, hx, if_true]
    rw [ih (fun y hy => ha y (List.mem_cons_of_mem x hy))]

theorem takeWhile_nil_of (w : List Char) {p : Char → Bool}
    (h : ∀ c ∈ w, p c = false) : w.takeWhile p = [] := by
  cases w with
  | nil => rfl
  | cons c rest => simp [List.takeWhile_cons, h c (List.mem_cons_self c rest)]

theorem subImportsAux_nil (fuel : Nat) (b : Bool) : subImportsAux fuel [] b = [] := by
  cases fuel <;> rfl

theorem subImportsAux_keep : ∀ (fuel : Nat) (s : List Char), '\n' ∉ s →
    subImportsAux fuel s false = s
  | 0, _, _ => rfl
  | _ + 1, [], _ => rfl
  | fuel + 1, c :: rest, hs => by
    have hc : (c == '\n') = false := by
      have : c ≠ '\n' := fun e => hs (e ▸ List.mem_cons_self c rest)
      simpa using this
    simp only [subImportsAux, if_neg Bool.false_ne_true, hc]
    rw [subImportsAux_keep fuel rest (fun hm => hs (List.mem_cons_of_mem c hm))]

theorem matchImportAt_none (s : List Char)
    (h : ((str "import").isPrefixOf s) = false) : matchImportAt s = none := by
  unfold matchImportAt
  rw [h]
  simp

theorem subImports_keep (c : Char) (rest : List Char)
    (hm : matchImportAt (c :: rest) = none) (hc : c ≠ '\n')
    (hnl : '\n' ∉ rest) : subImports (c :: rest) = c :: rest := by
  show subImportsAux ((c :: rest).length + 1) (c :: rest) true = c :: rest
  have hstep : subImportsAux ((c :: rest).length + 1) (c :: rest) true =
      match matchImportAt (c :: rest) with
      | some len =>
        subImportsAux (c :: rest).length ((c :: rest).drop len) false
      | none => c :: subImportsAux (c :: rest).length rest (c == '\n') := rfl
  rw [hstep, hm, show (c == '\n') = false from by simpa using hc,
    subImportsAux_keep _ rest hnl]

theorem subTagsAux_nil (fuel : Nat) : subTagsAux fuel [] = [] := by
  cases fuel <;> rfl

theorem matchTagAt_none (c : Char) (rest : List Char) (hc : c ≠ '<') :
    matchTagAt (c :: rest) = none := by
  simp [matchTagAt, hc]

theorem subTagsAux_keep : ∀ (fuel : Nat) (s : List Char), '<' ∉ s →
    subTagsAux fuel s = s
  | 0, _, _ => rfl
  | _ + 1, [], _ => rfl
  | fuel + 1, c :: rest, hs => by
    have hc : c ≠ '<' := fun e => hs (e ▸ List.mem_cons_self c rest)
    simp only [subTagsAux, matchTagAt_none c rest hc]
    rw [subTagsAux_keep fuel rest (fun hm => hs (List.mem_cons_of_mem c hm))]

theorem subTags_keep (s : List Char) (hs : '<' ∉ s) : subTags s = s :=
  subTagsAux_keep _ s hs

theorem subSelfCloseAux_nil (fuel : Nat) : subSelfCloseAux fuel [] = [] := by
  cases fuel <;> rfl

theorem matchSelfCloseAt_none (c : Char) (rest : List Char) (hc : c ≠ '<') :
    matchSelfCloseAt (c :: rest) = none := by
  simp [matchSelfCloseAt, hc]

theorem subSelfCloseAux_keep : ∀ (fuel : Nat) (s : List Char), '<' ∉ s →
    subSelfCloseAux fuel s = s
  | 0, _, _ => rfl
  | _ + 1, [], _ => rfl
  | fuel + 1, c :: rest, hs => by
    have hc : c ≠ '<' := fun e => hs (e ▸ List.mem_cons_self c rest)
    simp only [subSelfCloseAux, matchSelfCloseAt_none c rest hc]
    rw [subSelfCloseAux_keep fuel rest (fun hm => hs (List.mem_cons_of_mem c hm))]

theorem subBracesAux_nil (fuel : Nat) : subBracesAux fuel [] = [] := by
  cases fuel <;> rfl

theorem matchBraceAt_none (c : Char) (rest : List Char) (hc : c ≠ '\x7b') :
    matchBraceAt (c :: rest) = none := by
  simp [matchBraceAt, hc]

theorem subBracesAux_keep : ∀ (fuel : Nat) (s : List Char), '\x7b' ∉ s →
    subBracesAux fuel s = s
  | 0, _, _ => rfl
  | _ + 1, [], _ => rfl
  | fuel + 1, c :: rest, hs => by
    have hc : c ≠ '\x7b' := fun e => hs (e ▸ List.mem_cons_self c rest)
    simp only [subBracesAux, matchBraceAt_none c rest hc]
    rw [subBracesAux_keep fuel rest (fun hm => hs (List.mem_cons_of_mem c hm))]

theorem findSub_self (l : List Char) : findSub l l = some ([], []) := by
  cases l with
  | nil => rfl
  | cons c rest =>
    unfold findSub
    rw [if_pos ( List.isPrefixOf_iff_prefix.mpr (List.prefix_refl _))]
    rw [List.drop_length]

theorem findSub_skip {pc : Char} (pt : List Char) :
    ∀ (b s2 : List Char), pc ∉ b →
      findSub (pc :: pt) (b ++ s2) =
        (findSub (pc :: pt) s2).map (fun pr => (b ++ pr.1, pr.2)) := by
  intro b
  induction b with
  | nil =>
    intro s2 _
    rcases hf : findSub (pc :: pt) s2 with _ | ⟨x, y⟩ <;> simp [hf]
  | cons d b' ih =>
    intro s2 hb
    have hd : (pc == d) = false := by
      have : pc ≠ d := fun e => hb (e ▸ List.mem_cons_self d b')
      simpa using this
    have hpre : ((pc :: pt).isPrefixOf (d :: (b' ++ s2))) = false := by
      simp [List.isPrefixOf, hd]
    have hstep : findSub (pc :: pt) (d :: (b' ++ s2)) =
        if (pc :: pt).isPrefixOf (d :: (b' ++ s2)) then
          some ([], (d :: (b' ++ s2)).drop (pc :: pt).length)
        else
          match findSub (pc :: pt) (b' ++ s2) with
          | some (b, a) => some (d :: b, a)
          | none => none := rfl
    rw [List.cons_append, hstep, hpre]
    simp only [Bool.false_eq_true, if_false]
    rw [ih s2 (fun hm => hb (List.mem_cons_of_mem d hm))]
    rcases hf : findSub (pc :: pt) s2 with _ | ⟨x, y⟩ <;> simp [hf]

theorem subTagsAux_step (fuel : Nat) (c : Char) (rest : List Char) :
    subTagsAux (fuel + 1) (c :: rest) =
      match matchTagAt (c :: rest) with
      | some (rep, len) => rep ++ subTagsAux fuel ((c :: rest).drop len)
      | none => c :: subTagsAux fuel rest := rfl

theorem subImportsAux_step (fuel : Nat) (c : Char) (rest : List Char) :
    subImportsAux (fuel + 1) (c :: rest) true =
      match matchImportAt (c :: rest) with
      | some len => subImportsAux fuel ((c :: rest).drop len) false
      | none => c :: subImportsAux fuel rest (c == '\n') := rfl

theorem iterTags_step (n : Nat) (c : List Char) :
    iterTags (n + 1) c = if subTags c = c then c else iterTags n (subTags c) := rfl

theorem matchTagAt_wrap (name body : List Char) (hn : name ≠ [])
    (hw : ∀ c ∈ name, isWordChar c = true) (hb : '<' ∉ body) :
    matchTagAt ('<' :: (name ++ '>' :: (body ++ ('<' :: '/' :: (name ++ ['>']))))) =
      some (body,
        ('<' :: (name ++ '>' :: (body ++ ('<' :: '/' :: (name ++ ['>']))))).length) := by
  have hword : (name ++ '>' :: (body ++ ('<' :: '/' :: (name ++ ['>'])))).takeWhile
      isWordChar = name :=
    takeWhile_append_stop _ _ hw (by decide)
  have hgt : (name ++ '>' :: (body ++ ('<' :: '/' :: (name ++ ['>'])))).takeWhile
      (fun c => c != '>') = name := by
    refine takeWhile_append_stop _ _ (fun x hx => ?_) (by decide)
    have hxw := hw x hx
    have : x ≠ '>' := by
      intro e
      rw [e] at hxw
      exact absurd hxw (by decide)
    simpa using this
  have hlenpos : name.length ≠ 0 := fun h0 => hn (List.length_eq_zero.mp h0)
  obtain ⟨c0, name', rfl⟩ := List.exists_cons_of_ne_nil hn
  simp only [matchTagAt, if_pos rfl, hword, hgt, hlenpos, if_neg hlenpos]
  rw [List.drop_left, List.length_cons]
  simp only [tryCloser]
  rw [List.take_succ_cons, List.take_length]
  rw [findSub_skip _ body ('<' :: '/' :: ((c0 :: name') ++ ['>'])) hb, findSub_self]
  simp only [Option.map_some', List.append_nil, if_true, if_false,
    Option.some_inj, Prod.mk.injEq, eq_self_iff_true, true_and,
    List.length_cons, List.length_append, List.length_nil]
  omega

theorem subTags_wrap (name body : List Char) (hn : name ≠ [])
    (hw : ∀ c ∈ name, isWordChar c = true) (hb : '<' ∉ body) :
    subTags ('<' :: (name ++ '>' :: (body ++ ('<' :: '/' :: (name ++ ['>']))))) =
      body := by
  unfold subTags
  rw [List.length_cons, subTagsAux_step, matchTagAt_wrap name body hn hw hb]
  show body ++
      subTagsAux ((name ++ '>' :: (body ++ '<' :: '/' :: (name ++ ['>']))).length + 1)
        (List.drop ((name ++ '>' :: (body ++ '<' :: '/' :: (name ++ ['>']))).length + 1)
          ('<' :: (name ++ '>' :: (body ++ '<' :: '/' :: (name ++ ['>']))))) = body
  rw [List.drop_succ_cons, List.drop_length, subTagsAux_nil, List.append_nil]

theorem strip_mdx_wrap (name body : List Char) (hn : name ≠ [])
    (hw : ∀ c ∈ name, isWordChar c = true) (hb : '<' ∉ body)
    (hbr : '\x7b' ∉ body) (hnn : '\n' ∉ name) (hnb : '\n' ∉ body) :
    strip_mdx_components
        (str "<" ++ name ++ str ">" ++ body ++ str "</" ++ name ++ str ">") =
      pyStrip body := by
  have hin : str "<" ++ name ++ str ">" ++ body ++ str "</" ++ name ++ str ">" =
      '<' :: (name ++ '>' :: (body ++ ('<' :: '/' :: (name ++ ['>'])))) := by
    rw [show str "<" = ['<'] from rfl, show str ">" = ['>'] from rfl,
      show str "</" = ['<', '/'] from rfl]
    simp
  have hnlrest : '\n' ∉ name ++ '>' :: (body ++ ('<' :: '/' :: (name ++ ['>']))) := by
    intro hmem
    simp only [List.mem_append, List.mem_cons, List.mem_singleton] at hmem
    rcases hmem with h | h | h | h | h | h | h
    · exact hnn h
    · exact absurd h (by decide)
    · exact hnb h
    · exact absurd h (by decide)
    · exact absurd h (by decide)
    · exact hnn h
    · exact absurd h (by decide)
  have himp : matchImportAt
      ('<' :: (name ++ '>' :: (body ++ ('<' :: '/' :: (name ++ ['>']))))) = none := by
    refine matchImportAt_none _ ?_
    rw [show str "import" = 'i' :: str "mport" from rfl]
    simp [List.isPrefixOf]
  have hne_body : body ≠
      '<' :: (name ++ '>' :: (body ++ ('<' :: '/' :: (name ++ ['>'])))) := by
    intro he
    exact hb (he ▸ List.mem_cons_self _ _)
  unfold strip_mdx_components
  rw [hin, subImports_keep _ _ himp (by decide) hnlrest]
  rw [show (10 : Nat) = 9 + 1 from rfl, iterTags_step,
    subTags_wrap name body hn hw hb, if_neg hne_body]
  rw [show (9 : Nat) = 8 + 1 from rfl, iterTags_step,
    subTags_keep body hb, if_pos rfl]
  rw [show subSelfClose body = body from subSelfCloseAux_keep _ body hb]
  rw [show subBraces body = body from subBracesAux_keep _ body hbr]

theorem matchImportAt_full (c : Char) (r : List Char)
    (hc : isPySpace c = false) (hnr : '\n' ∉ r) :
    matchImportAt (str "import " ++ (c :: r)) = some (8 + r.length) := by
  have hsp : isPySpace ' ' = true := rfl
  have hW : (' ' :: c :: r).takeWhile isPySpace = [' '] := by
    simp [List.takeWhile_cons, hsp, hc]
  have hT : r.takeWhile (fun x => x != '\n') = r := by
    refine List.takeWhile_eq_self_iff.mpr (fun x hx => ?_)
    have : x ≠ '\n' := fun e => hnr (e ▸ hx)
    simpa using this
  have hws2 : matchWsDotPlus (' ' :: c :: r) = some (c :: r, 2 + r.length) := by
    simp only [matchWsDotPlus, hW]
    rw [if_neg (by simp)]
    rw [show (' ' :: c :: r).drop ([' '] : List Char).length = c :: r from rfl]
    show some (c :: r.takeWhile (fun x => x != '\n'),
      ([' '] : List Char).length + 1 + (r.takeWhile (fun x => x != '\n')).length) =
      some (c :: r, 2 + r.length)
    rw [hT]
    congr 1
  have hpre : ((str "import").isPrefixOf (str "import " ++ (c :: r))) = true := by
    rw [show str "import " ++ (c :: r) = str "import" ++ (' ' :: c :: r) from rfl]
    exact List.isPrefixOf_iff_prefix.mpr (List.prefix_append _ _)
  unfold matchImportAt
  rw [hpre, if_pos rfl,
    show (str "import " ++ (c :: r)).drop 6 = ' ' :: c :: r from rfl, hws2]
  show some (6 + (2 + r.length)) = some (8 + r.length)
  congr 1
  omega

theorem matchImportAt_mid (c : Char) (r z : List Char)
    (hc : isPySpace c = false) (hnr : '\n' ∉ r) :
    matchImportAt (str "import " ++ (c :: (r ++ '\n' :: z))) = some (8 + r.length) := by
  have hsp : isPySpace ' ' = true := rfl
  have hW : (' ' :: c :: (r ++ '\n' :: z)).takeWhile isPySpace = [' '] := by
    simp [List.takeWhile_cons, hsp, hc]
  have hT : (r ++ '\n' :: z).takeWhile (fun x => x != '\n') = r := by
    refine takeWhile_append_stop _ _ (fun x hx => ?_) (by decide)
    have : x ≠ '\n' := fun e => hnr (e ▸ hx)
    simpa using this
  have hws2 : matchWsDotPlus (' ' :: c :: (r ++ '\n' :: z)) =
      some (c :: r, 2 + r.length) := by
    simp only [matchWsDotPlus, hW]
    rw [if_neg (by simp)]
    rw [show (' ' :: c :: (r ++ '\n' :: z)).drop ([' '] : List Char).length =
      c :: (r ++ '\n' :: z) from rfl]
    show some (c :: (r ++ '\n' :: z).takeWhile (fun x => x != '\n'),
      ([' '] : List Char).length + 1 +
        ((r ++ '\n' :: z).takeWhile (fun x => x != '\n')).length) =
      some (c :: r, 2 + r.length)
    rw [hT]
    congr 1
  have hpre : ((str "import").isPrefixOf
      (str "import " ++ (c :: (r ++ '\n' :: z)))) = true := by
    rw [show str "import " ++ (c :: (r ++ '\n' :: z)) =
      str "import" ++ (' ' :: c :: (r ++ '\n' :: z)) from rfl]
    exact List.isPrefixOf_iff_prefix.mpr (List.prefix_append _ _)
  unfold matchImportAt
  rw [hpre, if_pos rfl,
    show (str "import " ++ (c :: (r ++ '\n' :: z))).drop 6 =
      ' ' :: c :: (r ++ '\n' :: z) from rfl, hws2]
  show some (6 + (2 + r.length)) = some (8 + r.length)
  congr 1
  omega

theorem subImportsAux_step_false (fuel : Nat) (c : Char) (rest : List Char) :
    subImportsAux (fuel + 1) (c :: rest) false =
      c :: subImportsAux fuel rest (c == '\n') := rfl

theorem subImportsAux_walk : ∀ (x : List Char) (fuel : Nat) (rest : List Char),
    '\n' ∉ x →
    subImportsAux (x.length + fuel) (x ++ rest) false =
      x ++ subImportsAux fuel rest false
  | [], fuel, rest, _ => by simp
  | c :: x', fuel, rest, hx => by
    have hc : (c == '\n') = false := by
      have : c ≠ '\n' := fun e => hx (e ▸ List.mem_cons_self c x')
      simpa using this
    rw [show (c :: x').length + fuel = (x'.length + fuel) + 1 from by
      simp only [List.length_cons]; omega]
    rw [List.cons_append, subImportsAux_step_false, hc]
    rw [subImportsAux_walk x' fuel rest (fun hm => hx (List.mem_cons_of_mem c hm))]
    rfl

theorem subImports_id (s : List Char) (hnl : '\n' ∉ s)
    (himp : ((str "import").isPrefixOf s) = false) : subImports s = s := by
  cases s with
  | nil => rfl
  | cons c rest =>
    exact subImports_keep c rest (matchImportAt_none _ himp)
      (fun e => hnl (e ▸ List.mem_cons_self c rest))
      (fun hm => hnl (List.mem_cons_of_mem c hm))

theorem subImports_mid (c : Char) (r p2 : List Char) (f : Nat)
    (hc : isPySpace c = false) (hnr : '\n' ∉ r) (hp2 : '\n' ∉ p2)
    (himp2 : ((str "import").isPrefixOf p2) = false) :
    subImportsAux (f + 3) (str "import " ++ (c :: (r ++ '\n' :: p2))) true =
      '\n' :: p2 := by
  have hm := matchImportAt_mid c r p2 hc hnr
  rw [show str "import " ++ (c :: (r ++ '\n' :: p2)) =
    'i' :: (str "mport " ++ (c :: (r ++ '\n' :: p2))) from rfl] at hm ⊢
  rw [show f + 3 = (f + 2) + 1 from rfl, subImportsAux_step, hm]
  show subImportsAux (f + 2)
      (('i' :: (str "mport " ++ (c :: (r ++ '\n' :: p2)))).drop (8 + r.length))
      false = '\n' :: p2
  have hdrop : ('i' :: (str "mport " ++ (c :: (r ++ '\n' :: p2)))).drop
      (8 + r.length) = '\n' :: p2 := by
    have he : 'i' :: (str "mport " ++ (c :: (r ++ '\n' :: p2))) =
        ('i' :: (str "mport " ++ (c :: r))) ++ ('\n' :: p2) := by simp
    rw [he]
    refine List.drop_left' ?_
    simp only [List.length_cons, List.length_append,
      show (str "mport ").length = 6 from rfl]
    omega
  rw [hdrop]
  rw [show f + 2 = (f + 1) + 1 from rfl, subImportsAux_step_false]
  rw [show (('\n' : Char) == '\n') = true from rfl]
  cases p2 with
  | nil => rw [subImportsAux_nil]
  | cons e p2' =>
    rw [subImportsAux_step, matchImportAt_none _ himp2]
    show ('\n' : Char) :: e :: subImportsAux f p2' (e == '\n') = '\n' :: e :: p2'
    have he2 : (e == '\n') = false := by
      have : e ≠ '\n' := fun hx => hp2 (hx ▸ List.mem_cons_self e p2')
      simpa using this
    rw [he2, subImportsAux_keep f p2' (fun hm2 => hp2 (List.mem_cons_of_mem e hm2))]

theorem strip_mdx_import_ctx (p1 : List Char) (c : Char) (r p2 : List Char)
    (hn1 : '\n' ∉ p1) (hl1 : '<' ∉ p1) (hb1 : '\x7b' ∉ p1)
    (hc : isPySpace c = false) (hnr : '\n' ∉ r)
    (hn2 : '\n' ∉ p2) (hl2 : '<' ∉ p2) (hb2 : '\x7b' ∉ p2)
    (himp0 : ((str "import").isPrefixOf
      (p1 ++ '\n' :: (str "import " ++ (c :: (r ++ '\n' :: p2))))) = false)
    (himp2 : ((str "import").isPrefixOf p2) = false) :
    strip_mdx_components
        (p1 ++ '\n' :: (str "import " ++ (c :: (r ++ '\n' :: p2)))) =
      pyStrip (p1 ++ '\n' :: '\n' :: p2) := by
  have hmidlen : (str "import " ++ (c :: (r ++ '\n' :: p2))).length =
      9 + r.length + p2.length := by
    simp only [List.length_append, List.length_cons,
      show (str "import ").length = 7 from rfl]
    omega
  have hmid : ∀ f : Nat, subImportsAux (f + 3)
      (str "import " ++ (c :: (r ++ '\n' :: p2))) true = '\n' :: p2 :=
    fun f => subImports_mid c r p2 f hc hnr hn2 himp2
  have hsub : subImports (p1 ++ '\n' :: (str "import " ++ (c :: (r ++ '\n' :: p2)))) =
      p1 ++ '\n' :: '\n' :: p2 := by
    cases p1 with
    | nil =>
      simp only [List.nil_append]
      show subImportsAux
          (('\n' :: (str "import " ++ (c :: (r ++ '\n' :: p2)))).length + 1)
          ('\n' :: (str "import " ++ (c :: (r ++ '\n' :: p2)))) true =
        '\n' :: '\n' :: p2
      rw [List.length_cons, subImportsAux_step,
        matchImportAt_none _ (by simpa using himp0)]
      show ('\n' : Char) ::
          subImportsAux ((str "import " ++ (c :: (r ++ '\n' :: p2))).length + 1)
            (str "import " ++ (c :: (r ++ '\n' :: p2))) (('\n' : Char) == '\n') =
        '\n' :: '\n' :: p2
      rw [show (('\n' : Char) == '\n') = true from rfl]
      rw [show (str "import " ++ (c :: (r ++ '\n' :: p2))).length + 1 =
        (r.length + p2.length + 7) + 3 from by rw [hmidlen]; omega]
      rw [hmid (r.length + p2.length + 7)]
    | cons d p1' =>
      have hd : d ≠ '\n' := fun e => hn1 (e ▸ List.mem_cons_self d p1')
      have hn1' : '\n' ∉ p1' := fun hm => hn1 (List.mem_cons_of_mem d hm)
      have himp0' : ((str "import").isPrefixOf
          (d :: (p1' ++ '\n' :: (str "import " ++ (c :: (r ++ '\n' :: p2)))))) =
            false := by
        simpa using himp0
      show subImportsAux
          (((d :: p1') ++ '\n' :: (str "import " ++ (c :: (r ++ '\n' :: p2)))).length + 1)
          ((d :: p1') ++ '\n' :: (str "import " ++ (c :: (r ++ '\n' :: p2)))) true =
        (d :: p1') ++ '\n' :: '\n' :: p2
      rw [List.cons_append, List.length_cons, subImportsAux_step,
        matchImportAt_none _ himp0']
      show d :: subImportsAux
          ((p1' ++ '\n' :: (str "import " ++ (c :: (r ++ '\n' :: p2)))).length + 1)
          (p1' ++ '\n' :: (str "import " ++ (c :: (r ++ '\n' :: p2)))) (d == '\n') =
        (d :: p1') ++ '\n' :: '\n' :: p2
      rw [show (d == '\n') = false from by simpa using hd]
      rw [show (p1' ++ '\n' :: (str "import " ++ (c :: (r ++ '\n' :: p2)))).length + 1 =
        p1'.length + ((str "import " ++ (c :: (r ++ '\n' :: p2))).length + 2) from by
          simp only [List.length_append, List.length_cons]; omega]
      rw [subImportsAux_walk p1' _ _ hn1']
      rw [show (str "import " ++ (c :: (r ++ '\n' :: p2))).length + 2 =
        ((str "import " ++ (c :: (r ++ '\n' :: p2))).length + 1) + 1 from rfl,
        subImportsAux_step_false]
      rw [show (('\n' : Char) == '\n') = true from rfl]
      rw [show (str "import " ++ (c :: (r ++ '\n' :: p2))).length + 1 =
        (r.length + p2.length + 7) + 3 from by rw [hmidlen]; omega]
      rw [hmid (r.length + p2.length + 7)]
      rfl
  have hltR : '<' ∉ p1 ++ '\n' :: '\n' :: p2 := by
    intro hm
    simp only [List.mem_append, List.mem_cons] at hm
    rcases hm with h | h | h | h
    · exact hl1 h
    · exact absurd h (by decide)
    · exact absurd h (by decide)
    · exact hl2 h
  have hbrR : '\x7b' ∉ p1 ++ '\n' :: '\n' :: p2 := by
    intro hm
    simp only [List.mem_append, List.mem_cons] at hm
    rcases hm with h | h | h | h
    · exact hb1 h
    · exact absurd h (by decide)
    · exact absurd h (by decide)
    · exact hb2 h
  unfold strip_mdx_components
  rw [hsub]
  rw [show (10 : Nat) = 9 + 1 from rfl, iterTags_step,
    subTags_keep _ hltR, if_pos rfl]
  rw [show subSelfClose (p1 ++ '\n' :: '\n' :: p2) = p1 ++ '\n' :: '\n' :: p2 from
    subSelfCloseAux_keep _ _ hltR]
  rw [show subBraces (p1 ++ '\n' :: '\n' :: p2) = p1 ++ '\n' :: '\n' :: p2 from
    subBracesAux_keep _ _ hbrR]

theorem findSub_pre (c : Char) (r0 z : List Char) :
    findSub (c :: r0) ((c :: r0) ++ z) = some ([], z) := by
  have hp : ((c :: r0).isPrefixOf (c :: (r0 ++ z))) = true := by
    refine List.isPrefixOf_iff_prefix.mpr ?_
    rw [show (c :: (r0 ++ z) : List Char) = (c :: r0) ++ z from by simp]
    exact List.prefix_append _ _
  have hstep : findSub (c :: r0) (c :: (r0 ++ z)) =
      if (c :: r0).isPrefixOf (c :: (r0 ++ z)) then
        some ([], (c :: (r0 ++ z)).drop (c :: r0).length)
      else
        match findSub (c :: r0) (r0 ++ z) with
        | some (b, a) => some (c :: b, a)
        | none => none := rfl
  rw [List.cons_append, hstep, if_pos hp]
  rw [show (c :: (r0 ++ z)).drop (c :: r0).length = z from by
    rw [List.length_cons, List.drop_succ_cons, List.drop_left]]

theorem matchTagAt_mid (name body post : List Char) (hn : name ≠ [])
    (hw : ∀ c ∈ name, isWordChar c = true) (hb : '<' ∉ body) :
    matchTagAt ('<' :: (name ++ '>' :: (body ++ ('<' :: '/' :: (name ++ '>' :: post))))) =
      some (body,
        ('<' :: (name ++ '>' :: (body ++ ('<' :: '/' :: (name ++ ['>']))))).length) := by
  have hword : (name ++ '>' :: (body ++ ('<' :: '/' :: (name ++ '>' :: post)))).takeWhile
      isWordChar = name :=
    takeWhile_append_stop _ _ hw (by decide)
  have hgt : (name ++ '>' :: (body ++ ('<' :: '/' :: (name ++ '>' :: post)))).takeWhile
      (fun c => c != '>') = name := by
    refine takeWhile_append_stop _ _ (fun x hx => ?_) (by decide)
    have hxw := hw x hx
    have : x ≠ '>' := by
      intro e
      rw [e] at hxw
      exact absurd hxw (by decide)
    simpa using this
  have hlenpos : name.length ≠ 0 := fun h0 => hn (List.length_eq_zero.mp h0)
  obtain ⟨c0, name', rfl⟩ := List.exists_cons_of_ne_nil hn
  simp only [matchTagAt, if_pos rfl, hword, hgt, hlenpos, if_neg hlenpos]
  rw [List.drop_left, List.length_cons]
  simp only [tryCloser]
  rw [List.take_succ_cons, List.take_length]
  rw [findSub_skip _ body ('<' :: '/' :: ((c0 :: name') ++ '>' :: post)) hb]
  rw [show ('<' :: '/' :: ((c0 :: name') ++ '>' :: post) : List Char) =
    ('<' :: '/' :: ((c0 :: name') ++ ['>'])) ++ post from by simp]
  rw [findSub_pre]
  simp only [Option.map_some', List.append_nil, if_true, if_false,
    Option.some_inj, Prod.mk.injEq, eq_self_iff_true, true_and,
    List.length_cons, List.length_append, List.length_nil]
  omega

theorem subTagsAux_walk : ∀ (x : List Char) (fuel : Nat) (rest : List Char),
    '<' ∉ x →
    subTagsAux (x.length + fuel) (x ++ rest) = x ++ subTagsAux fuel rest
  | [], _, _, _ => by simp
  | c :: x', fuel, rest, hx => by
    have hc : c ≠ '<' := fun e => hx (e ▸ List.mem_cons_self c x')
    rw [show (c :: x').length + fuel = (x'.length + fuel) + 1 from by
      simp only [List.length_cons]; omega]
    rw [List.cons_append, subTagsAux_step, matchTagAt_none c (x' ++ rest) hc]
    show c :: subTagsAux (x'.length + fuel) (x' ++ rest) =
      (c :: x') ++ subTagsAux fuel rest
    rw [subTagsAux_walk x' fuel rest (fun hm => hx (List.mem_cons_of_mem c hm))]
    rfl

theorem subTags_append (x y : List Char) (hx : '<' ∉ x) :
    subTags (x ++ y) = x ++ subTags y := by
  unfold subTags
  rw [show (x ++ y).length + 1 = x.length + (y.length + 1) from by
    simp only [List.length_append]; omega]
  exact subTagsAux_walk x (y.length + 1) y hx

theorem subTags_mid (pre name body post : List Char) (hn : name ≠ [])
    (hw : ∀ c ∈ name, isWordChar c = true)
    (hpre : '<' ∉ pre) (hb : '<' ∉ body) (hpost : '<' ∉ post) :
    subTags (pre ++
        ('<' :: (name ++ '>' :: (body ++ ('<' :: '/' :: (name ++ '>' :: post)))))) =
      pre ++ (body ++ post) := by
  rw [subTags_append _ _ hpre]
  congr 1
  unfold subTags
  rw [List.length_cons, subTagsAux_step, matchTagAt_mid name body post hn hw hb]
  show body ++
      subTagsAux ((name ++ '>' :: (body ++ '<' :: '/' :: (name ++ '>' :: post))).length + 1)
        (List.drop
          (('<' :: (name ++ '>' :: (body ++ ('<' :: '/' :: (name ++ ['>']))))).length)
          ('<' :: (name ++ '>' :: (body ++ '<' :: '/' :: (name ++ '>' :: post))))) =
    body ++ post
  have hdrop : List.drop
      (('<' :: (name ++ '>' :: (body ++ ('<' :: '/' :: (name ++ ['>']))))).length)
      ('<' :: (name ++ '>' :: (body ++ '<' :: '/' :: (name ++ '>' :: post)))) = post := by
    have he : '<' :: (name ++ '>' :: (body ++ '<' :: '/' :: (name ++ '>' :: post))) =
        ('<' :: (name ++ '>' :: (body ++ ('<' :: '/' :: (name ++ ['>']))))) ++ post := by
      simp
    rw [he, List.drop_left]
  rw [hdrop, subTagsAux_keep _ post hpost]

theorem strip_mdx_tag_ctx (pre name body post : List Char) (hn : name ≠ [])
    (hw : ∀ c ∈ name, isWordChar c = true)
    (hpre : '<' ∉ pre) (hb : '<' ∉ body) (hpost : '<' ∉ post)
    (hbr1 : '\x7b' ∉ pre) (hbr : '\x7b' ∉ body) (hbr2 : '\x7b' ∉ post)
    (hn1 : '\n' ∉ pre) (hnb : '\n' ∉ body) (hn2 : '\n' ∉ post)
    (himp : ((str "import").isPrefixOf
      (pre ++ (str "<" ++ name ++ str ">" ++ body ++ str "</" ++ name ++ str ">") ++
        post)) = false) :
    strip_mdx_components
        (pre ++ (str "<" ++ name ++ str ">" ++ body ++ str "</" ++ name ++ str ">") ++
          post) =
      pyStrip (pre ++ (body ++ post)) := by
  have hnn : '\n' ∉ name := fun hm => absurd (hw _ hm) (by decide)
  have hin : pre ++ (str "<" ++ name ++ str ">" ++ body ++ str "</" ++ name ++ str ">") ++
      post =
      pre ++ ('<' :: (name ++ '>' :: (body ++ ('<' :: '/' :: (name ++ '>' :: post))))) := by
    rw [show str "<" = ['<'] from rfl, show str ">" = ['>'] from rfl,
      show str "</" = ['<', '/'] from rfl]
    simp
  rw [hin] at himp ⊢
  have hnlS : '\n' ∉
      pre ++ ('<' :: (name ++ '>' :: (body ++ ('<' :: '/' :: (name ++ '>' :: post))))) := by
    intro hm
    simp only [List.mem_append, List.mem_cons] at hm
    rcases hm with h | h | h | h | h | h | h | h | h | h
    · exact hn1 h
    · exact absurd h (by decide)
    · exact hnn h
    · exact absurd h (by decide)
    · exact hnb h
    · exact absurd h (by decide)
    · exact absurd h (by decide)
    · exact hnn h
    · exact absurd h (by decide)
    · exact hn2 h
  have h1 : subTags
      (pre ++ ('<' :: (name ++ '>' :: (body ++ ('<' :: '/' :: (name ++ '>' :: post)))))) =
      pre ++ (body ++ post) := subTags_mid pre name body post hn hw hpre hb hpost
  have hne : pre ++ (body ++ post) ≠
      pre ++ ('<' :: (name ++ '>' :: (body ++ ('<' :: '/' :: (name ++ '>' :: post))))) := by
    intro he
    have := congrArg List.length he
    simp only [List.length_append, List.length_cons] at this
    omega
  have hltR : '<' ∉ pre ++ (body ++ post) := by
    intro hm
    rcases List.mem_append.mp hm with h | h
    · exact hpre h
    · rcases List.mem_append.mp h with h' | h'
      · exact hb h'
      · exact hpost h'
  have hbrR : '\x7b' ∉ pre ++ (body ++ post) := by
    intro hm
    rcases List.mem_append.mp hm with h | h
    · exact hbr1 h
    · rcases List.mem_append.mp h with h' | h'
      · exact hbr h'
      · exact hbr2 h'
  unfold strip_mdx_components
  rw [subImports_id _ hnlS himp]
  rw [show (10 : Nat) = 9 + 1 from rfl, iterTags_step, h1, if_neg hne]
  rw [show (9 : Nat) = 8 + 1 from rfl, iterTags_step, subTags_keep _ hltR, if_pos rfl]
  rw [show subSelfClose (pre ++ (body ++ post)) = pre ++ (body ++ post) from
    subSelfCloseAux_keep _ _ hltR]
  rw [show subBraces (pre ++ (body ++ post)) = pre ++ (body ++ post) from
    subBracesAux_keep _ _ hbrR]

/-- C6 (amended): `strip_mdx_components` removes every whole line matching
an import statement — shown in general for a stand-alone import line and
for an import line embedded between newline-free, tag-free lines of a
larger document, plus a concrete multi-line example.  Paired component
tags whose nesting resolves within the fixed 10-iteration cap are
replaced by their content, both stand-alone and in surrounding context
(general wrapped-tag and tag-in-context theorems, whose tag/brace-free
body passes through untouched up to the final whitespace strip), so
markdown image syntax `![alt](url)` inside a stripped tag is preserved
verbatim (concrete examples).  Tags nested deeper than the cap retain
outer tag residue (concrete depth-11 example keeps `<a>x</a>`).  Unlike
the original claim, the output is not in general free of component-style
opening tags: an unpaired opening tag such as `<a>x` is not matched by
the paired-tag pattern and survives (see the counterexample), so the
no-opening-tags guarantee holds only for paired tags. -/
theorem claim_C6 :
    (∀ (c : Char) (r : List Char), isPySpace c = false → '\n' ∉ r →
      strip_mdx_components (str "import " ++ (c :: r)) = []) ∧
    (∀ (p1 : List Char) (c : Char) (r p2 : List Char),
      '\n' ∉ p1 → '<' ∉ p1 → '\x7b' ∉ p1 →
      isPySpace c = false → '\n' ∉ r →
      '\n' ∉ p2 → '<' ∉ p2 → '\x7b' ∉ p2 →
      ((str "import").isPrefixOf
        (p1 ++ '\n' :: (str "import " ++ (c :: (r ++ '\n' :: p2))))) = false →
      ((str "import").isPrefixOf p2) = false →
      strip_mdx_components
          (p1 ++ '\n' :: (str "import " ++ (c :: (r ++ '\n' :: p2)))) =
        pyStrip (p1 ++ '\n' :: '\n' :: p2)) ∧
    strip_mdx_components (str "import A from B\nHello ![i](a.png) world") =
      str "Hello ![i](a.png) world" ∧
    strip_mdx_components
        (str "<Tabs><TabItem value=\"a\">Text ![alt](i.png) end</TabItem></Tabs>") =
      str "Text ![alt](i.png) end" ∧
    strip_mdx_components
        (str "<a><a><a><a><a><a><a><a><a><a><a>x</a></a></a></a></a></a></a></a></a></a></a>") =
      str "<a>x</a>" ∧
    (∀ name body : List Char, name ≠ [] → (∀ c ∈ name, isWordChar c = true) →
      '<' ∉ body → '\x7b' ∉ body → '\n' ∉ name → '\n' ∉ body →
      strip_mdx_components
          (str "<" ++ name ++ str ">" ++ body ++ str "</" ++ name ++ str ">") =
        pyStrip body) ∧
    (∀ pre name body post : List Char, name ≠ [] →
      (∀ c ∈ name, isWordChar c = true) →
      '<' ∉ pre → '<' ∉ body → '<' ∉ post →
      '\x7b' ∉ pre → '\x7b' ∉ body → '\x7b' ∉ post →
      '\n' ∉ pre → '\n' ∉ body → '\n' ∉ post →
      ((str "import").isPrefixOf
        (pre ++ (str "<" ++ name ++ str ">" ++ body ++ str "</" ++ name ++ str ">") ++
          post)) = false →
      strip_mdx_components
          (pre ++ (str "<" ++ name ++ str ">" ++ body ++ str "</" ++ name ++ str ">") ++
            post) =
        pyStrip (pre ++ (body ++ post))) ∧
    strip_mdx_components (str "<Figure>![alt](x.png)</Figure>") =
      str "![alt](x.png)" := by
  refine ⟨?_, strip_mdx_import_ctx, by decide, by decide, by decide,
    strip_mdx_wrap, strip_mdx_tag_ctx, by decide⟩
  intro c r hc hnr
  have hm := matchImportAt_full c r hc hnr
  have hsub : subImports (str "import " ++ (c :: r)) = [] := by
    unfold subImports
    rw [show str "import " ++ (c :: r) = 'i' :: (str "mport " ++ (c :: r)) from rfl,
      List.length_cons, subImportsAux_step,
      show matchImportAt ('i' :: (str "mport " ++ (c :: r))) = some (8 + r.length)
        from hm]
    have hdrop : ('i' :: (str "mport " ++ (c :: r))).drop (8 + r.length) = [] := by
      apply List.drop_eq_nil_of_le
      simp only [List.length_cons, List.length_append,
        show (str "mport ").length = 6 from rfl]
      omega
    show subImportsAux ((str "mport " ++ c :: r).length + 1)
        (List.drop (8 + r.length) ('i' :: (str "mport " ++ c :: r))) false = []
    rw [hdrop, subImportsAux_nil]
  unfold strip_mdx_components
  rw [hsub]
  decide

/-- Counterexample to C6 as frozen: the unpaired opening tag in `<a>x`
is not matched by any of the removal patterns, so `strip_mdx_components`
returns it unchanged and the output still contains the component-style
opening tag `<a>`. -/
theorem claim_C6_cex :
    strip_mdx_components (str "<a>x") = str "<a>x" ∧
    containsSub (str "<a>") (strip_mdx_components (str "<a>x")) = true := by
  decide

/-- Witness for C6: the four general parts (stand-alone import line, an
embedded import line in a larger document, wrapped image tag, tag in
surrounding context) applied at concrete inputs. -/
theorem claim_C6_witness :
    strip_mdx_components (str "import " ++ ('A' :: str " from B")) = [] ∧
    strip_mdx_components
        (str "Hello" ++ '\n' :: (str "import " ++
          ('A' :: (str " from B" ++ '\n' :: str "world")))) =
      pyStrip (str "Hello" ++ '\n' :: '\n' :: str "world") ∧
    strip_mdx_components (str "<" ++ str "b" ++ str ">" ++ str "![alt](u.png)" ++
        str "</" ++ str "b" ++ str ">") = pyStrip (str "![alt](u.png)") ∧
    strip_mdx_components
        (str "Before " ++ (str "<" ++ str "Tag" ++ str ">" ++ str "![i](u.png) mid" ++
          str "</" ++ str "Tag" ++ str ">") ++ str " after") =
      pyStrip (str "Before " ++ (str "![i](u.png) mid" ++ str " after")) :=
  ⟨claim_C6.1 'A' (str " from B") (by decide) (by decide),
    claim_C6.2.1 (str "Hello") 'A' (str " from B") (str "world")
      (by decide) (by decide) (by decide) (by decide) (by decide)
      (by decide) (by decide) (by decide) (by decide) (by decide),
    claim_C6.2.2.2.2.2.1 (str "b") (str "![alt](u.png)") (by decide) (by decide)
      (by decide) (by decide) (by decide) (by decide),
    claim_C6.2.2.2.2.2.2.1 (str "Before ") (str "Tag") (str "![i](u.png) mid")
      (str " after") (by decide) (by decide) (by decide) (by decide) (by decide)
      (by decide) (by decide) (by decide) (by decide) (by decide) (by decide)
      (by decide)⟩

/-! ### Lemmas about the link scanner -/

theorem matchBracketPart_nohead (c : Char) (t : List Char) (hc : c ≠ '[') :
    matchBracketPart (c :: t) = none := by
  simp [matchBracketPart, hc]

theorem matchLinkAt_none (s : List Char) (hs : '[' ∉ s) : matchLinkAt s = none := by
  cases s with
  | nil => rfl
  | cons c rest =>
    have hc : c ≠ '[' := fun e => hs (e ▸ List.mem_cons_self c rest)
    by_cases hb : c = '!'
    · subst hb
      simp only [matchLinkAt, if_pos rfl]
      cases rest with
      | nil => rfl
      | cons d t =>
        have hd : d ≠ '[' := fun e =>
          hs (e ▸ List.mem_cons_of_mem '!' (List.mem_cons_self d t))
        rw [matchBracketPart_nohead d t hd]
        simp
    · simp only [matchLinkAt, if_neg hb]
      rw [matchBracketPart_nohead c rest hc]

theorem convertAux_id : ∀ (fuel : Nat) (s : List Char), '[' ∉ s →
    convertAux fuel s = s
  | 0, _, _ => rfl
  | _ + 1, [], _ => rfl
  | fuel + 1, c :: rest, hs => by
    simp only [convertAux, matchLinkAt_none (c :: rest) hs]
    rw [convertAux_id fuel rest (fun hm => hs (List.mem_cons_of_mem c hm))]

theorem convert_keep (s : List Char) (hs : '[' ∉ s) :
    convert_relative_links_to_absolute s = s :=
  convertAux_id _ s hs

theorem convertAux_step (fuel : Nat) (c : Char) (rest : List Char) :
    convertAux (fuel + 1) (c :: rest) =
      match matchLinkAt (c :: rest) with
      | some (rep, len) => rep ++ convertAux fuel ((c :: rest).drop len)
      | none => c :: convertAux fuel rest := rfl

theorem convertAux_walk : ∀ (x : List Char) (fuel : Nat) (rest : List Char),
    '[' ∉ x → '!' ∉ x →
    convertAux (x.length + fuel) (x ++ rest) = x ++ convertAux fuel rest
  | [], _, _, _, _ => by simp
  | c :: x', fuel, rest, hlb, hbg => by
    have hc1 : c ≠ '[' := fun e => hlb (e ▸ List.mem_cons_self c x')
    have hc2 : c ≠ '!' := fun e => hbg (e ▸ List.mem_cons_self c x')
    have hml : matchLinkAt (c :: (x' ++ rest)) = none := by
      simp only [matchLinkAt, if_neg hc2]
      rw [matchBracketPart_nohead c (x' ++ rest) hc1]
    rw [show (c :: x').length + fuel = (x'.length + fuel) + 1 from by
      simp only [List.length_cons]; omega]
    rw [List.cons_append, convertAux_step, hml]
    show c :: convertAux (x'.length + fuel) (x' ++ rest) =
      (c :: x') ++ convertAux fuel rest
    rw [convertAux_walk x' fuel rest (fun hm => hlb (List.mem_cons_of_mem c hm))
      (fun hm => hbg (List.mem_cons_of_mem c hm))]
    rfl

theorem convert_append (x y : List Char) (h1 : '[' ∉ x) (h2 : '!' ∉ x) :
    convert_relative_links_to_absolute (x ++ y) =
      x ++ convert_relative_links_to_absolute y := by
  unfold convert_relative_links_to_absolute
  rw [show (x ++ y).length + 1 = x.length + (y.length + 1) from by
    simp only [List.length_append]; omega]
  exact convertAux_walk x (y.length + 1) y h1 h2

theorem matchBracketPart_nonempty (s t u : List Char) (len : Nat)
    (hm : matchBracketPart s = some (t, u, len)) : t ≠ [] ∧ u ≠ [] := by
  cases s with
  | nil => exact Option.noConfusion hm
  | cons c rest =>
    simp only [matchBracketPart] at hm
    by_cases hc : c = '['
    · rw [if_pos hc] at hm
      by_cases h1 : (rest.takeWhile (fun c => c != ']')).length = 0
      · rw [if_pos h1] at hm
        exact Option.noConfusion hm
      · rw [if_neg h1] at hm
        split at hm
        · split at hm
          · exact Option.noConfusion hm
          · rename_i h2
            split at hm
            · injection hm with hm1
              injection hm1 with h_t hm2
              injection hm2 with h_u h_len
              refine ⟨fun e => h1 ?_, fun e => h2 ?_⟩
              · rw [h_t, e]
                rfl
              · rw [h_u, e]
                rfl
            · exact Option.noConfusion hm
        · exact Option.noConfusion hm
    · rw [if_neg hc] at hm
      exact Option.noConfusion hm

/-- C10 (amended): the link scan of `convert_relative_links_to_absolute`
never matches a reference with an empty label or an empty URL — every
successful match of the bracket pattern has both groups nonempty (fully
general first part).  A reference with an empty label, `[](url)`, or an
empty URL, `[text]()`, therefore appears unchanged in the output, both
stand-alone and embedded in surrounding text, provided the surrounding
text and the reference's own label/url introduce no other `[` or `!`
match opportunity.  Unlike the original claim this is not true for every
occurrence: text nested inside the URL of an enclosing matched reference
is rewritten along with that URL (see the counterexample, where
`[a]([](./x))` rewrites the embedded `[](./x)` to `[](x)`). -/
theorem claim_C10 :
    (∀ (s t u : List Char) (len : Nat),
      matchBracketPart s = some (t, u, len) → t ≠ [] ∧ u ≠ []) ∧
    (∀ pre u post : List Char, '[' ∉ pre → '!' ∉ pre → '[' ∉ u → '[' ∉ post →
      convert_relative_links_to_absolute
          (pre ++ (str "[](" ++ (u ++ (str ")" ++ post)))) =
        pre ++ (str "[](" ++ (u ++ (str ")" ++ post)))) ∧
    (∀ pre t post : List Char, t ≠ [] → '[' ∉ pre → '!' ∉ pre → '[' ∉ t →
      ']' ∉ t → '[' ∉ post →
      convert_relative_links_to_absolute
          (pre ++ (str "[" ++ (t ++ (str "]()" ++ post)))) =
        pre ++ (str "[" ++ (t ++ (str "]()" ++ post)))) := by
  refine ⟨matchBracketPart_nonempty, ?_, ?_⟩
  · intro pre u post hpb hpg hu hpost
    rw [convert_append pre _ hpb hpg]
    congr 1
    have hin : str "[](" ++ (u ++ (str ")" ++ post)) =
        '[' :: (']' :: '(' :: (u ++ (')' :: post))) := by
      rw [show str "[](" = ['[', ']', '('] from rfl, show str ")" = [')'] from rfl]
      simp
    rw [hin]
    have hrest : '[' ∉ ']' :: '(' :: (u ++ (')' :: post)) := by
      intro hmem
      simp only [List.mem_cons, List.mem_append] at hmem
      rcases hmem with h | h | h | h | h
      · exact absurd h (by decide)
      · exact absurd h (by decide)
      · exact hu h
      · exact absurd h (by decide)
      · exact hpost h
    have hml : matchLinkAt ('[' :: (']' :: '(' :: (u ++ (')' :: post)))) = none := by
      simp only [matchLinkAt, if_neg (show ('[' : Char) ≠ '!' from by decide)]
      simp only [matchBracketPart, if_pos rfl]
      rw [show ((']' :: '(' :: (u ++ (')' :: post))).takeWhile
        (fun c => c != ']')) = [] from rfl]
      simp
    unfold convert_relative_links_to_absolute
    rw [List.length_cons, convertAux_step, hml]
    rw [convertAux_id _ _ hrest]
  · intro pre t post ht0 hpb hpg hlb hrb hpost
    rw [convert_append pre _ hpb hpg]
    congr 1
    have hin : str "[" ++ (t ++ (str "]()" ++ post)) =
        '[' :: (t ++ (']' :: '(' :: ')' :: post)) := by
      rw [show str "[" = ['['] from rfl, show str "]()" = [']', '(', ')'] from rfl]
      simp
    rw [hin]
    have hrest : '[' ∉ t ++ (']' :: '(' :: ')' :: post) := by
      intro hmem
      simp only [List.mem_append, List.mem_cons] at hmem
      rcases hmem with h | h | h | h | h
      · exact hlb h
      · exact absurd h (by decide)
      · exact absurd h (by decide)
      · exact absurd h (by decide)
      · exact hpost h
    have htw : (t ++ (']' :: '(' :: ')' :: post)).takeWhile (fun c => c != ']') =
        t := by
      refine takeWhile_append_stop _ _ (fun x hx => ?_) (by decide)
      have : x ≠ ']' := fun e => hrb (e ▸ hx)
      simpa using this
    have hml : matchLinkAt ('[' :: (t ++ (']' :: '(' :: ')' :: post))) = none := by
      simp only [matchLinkAt, if_neg (show ('[' : Char) ≠ '!' from by decide)]
      simp only [matchBracketPart, if_pos rfl, htw]
      rw [if_neg (fun h0 => ht0 (List.length_eq_zero.mp h0)), List.drop_left]
      simp
    unfold convert_relative_links_to_absolute
    rw [List.length_cons, convertAux_step, hml]
    rw [convertAux_id _ _ hrest]

/-- Counterexample to C10 as frozen: in `[a]([](./x))` the embedded
empty-label reference `[](./x)` sits inside the URL of the enclosing
matched reference `[a](...)`, whose URL cleaning removes the `./`, so
`[](./x)` does not appear unchanged in the output. -/
theorem claim_C10_cex :
    containsSub (str "[](./x)") (str "[a]([](./x))") = true ∧
    containsSub (str "[](./x)")
        (convert_relative_links_to_absolute (str "[a]([](./x))")) = false := by
  decide

/-- Witness for C10: the nonempty-groups part at a concrete match, and the
embedded empty-label / empty-URL parts at concrete references in
surrounding text. -/
theorem claim_C10_witness :
    (str "a" ≠ [] ∧ str "b" ≠ []) ∧
    convert_relative_links_to_absolute (str "see [](u.md) end") =
      str "see [](u.md) end" ∧
    convert_relative_links_to_absolute (str "see [text]() end") =
      str "see [text]() end" := by
  refine ⟨claim_C10.1 (str "[a](b)") (str "a") (str "b") 6 (by decide), ?_, ?_⟩
  · rw [show str "see [](u.md) end" =
      str "see " ++ (str "[](" ++ (str "u.md" ++ (str ")" ++ str " end"))) from rfl]
    exact claim_C10.2.1 (str "see ") (str "u.md") (str " end")
      (by decide) (by decide) (by decide) (by decide)
  · rw [show str "see [text]() end" =
      str "see " ++ (str "[" ++ (str "text" ++ (str "]()" ++ str " end"))) from rfl]
    exact claim_C10.2.2 (str "see ") (str "text") (str " end")
      (by decide) (by decide) (by decide) (by decide) (by decide) (by decide)

/-- C5: in `convert_relative_links_to_absolute`, a URL starting with
`http://`, `https://` or `#` passes through unchanged; a reference
classified as an image (by the `!` syntax, a `/img/` segment, or an image
extension) is rewritten under `https://nebari.dev/` through the image
cleaning steps (`../`/`./` and leading `/` stripped, `static/img/`
normalized); any other reference is rewritten under
`https://nebari.dev/docs/` through the documentation cleaning steps; the
label text is always preserved unchanged.  Concrete conjuncts check the
end-to-end examples, including that `../img/test.png` never gains a
`/docs/` prefix. -/
theorem claim_C5 :
    (∀ (b : Bool) (t u : List Char),
      ((str "http://").isPrefixOf u || (str "https://").isPrefixOf u) = true ∨
        (str "#").isPrefixOf u = true →
      replace_link b t u =
        (if b then str "!" else []) ++ str "[" ++ t ++ str "](" ++ u ++ str ")") ∧
    (∀ (b : Bool) (t u : List Char),
      ((str "http://").isPrefixOf u || (str "https://").isPrefixOf u) = false →
      (str "#").isPrefixOf u = false → isImageUrl b u = true →
      replace_link b t u =
        (if b then str "!" else []) ++ str "[" ++ t ++ str "](" ++
          (str "https://nebari.dev/" ++ cleanImg u) ++ str ")") ∧
    (∀ (b : Bool) (t u : List Char),
      ((str "http://").isPrefixOf u || (str "https://").isPrefixOf u) = false →
      (str "#").isPrefixOf u = false → isImageUrl b u = false →
      replace_link b t u =
        (if b then str "!" else []) ++ str "[" ++ t ++ str "](" ++
          (str "https://nebari.dev/docs/" ++ cleanDocs u) ++ str ")") ∧
    (∀ (b : Bool) (t u : List Char), ∃ v,
      replace_link b t u =
        (if b then str "!" else []) ++ str "[" ++ t ++ str "](" ++ v ++ str ")") ∧
    convert_relative_links_to_absolute (str "[text](guide/install.md)") =
      str "[text](https://nebari.dev/docs/guide/install.md)" ∧
    convert_relative_links_to_absolute (str "![alt](/img/architecture.png)") =
      str "![alt](https://nebari.dev/img/architecture.png)" ∧
    convert_relative_links_to_absolute (str "![alt](../img/test.png)") =
      str "![alt](https://nebari.dev/img/test.png)" ∧
    containsSub (str "/docs/")
        (convert_relative_links_to_absolute (str "![alt](../img/test.png)")) =
      false ∧
    convert_relative_links_to_absolute (str "[x](https://example.com)") =
      str "[x](https://example.com)" ∧
    convert_relative_links_to_absolute (str "[x](#section)") =
      str "[x](#section)" ∧
    convert_relative_links_to_absolute (str "[c](pic.png)") =
      str "[c](https://nebari.dev/pic.png)" ∧
    convert_relative_links_to_absolute (str "![d](/static/img/a.png)") =
      str "![d](https://nebari.dev/img/a.png)" := by
  refine ⟨?_, ?_, ?_, ?_, by decide, by decide, by decide, by decide, by decide,
    by decide, by decide, by decide⟩
  · intro b t u h
    rcases h with habs | hanc
    · simp only [replace_link]
      rw [habs, if_pos rfl]
    · by_cases habs :
        ((str "http://").isPrefixOf u || (str "https://").isPrefixOf u) = true
      · simp only [replace_link]
        rw [habs, if_pos rfl]
      · simp only [replace_link]
        rw [Bool.eq_false_iff.mpr habs, hanc]
        simp
  · intro b t u habs hanc himg
    simp only [replace_link]
    rw [habs, hanc, himg]
    simp
  · intro b t u habs hanc himg
    simp only [replace_link]
    rw [habs, hanc, himg]
    simp
  · intro b t u
    simp only [replace_link]
    by_cases h1 :
        ((str "http://").isPrefixOf u || (str "https://").isPrefixOf u) = true
    · rw [h1, if_pos rfl]
      exact ⟨u, rfl⟩
    · rw [Bool.eq_false_iff.mpr h1]
      by_cases h2 : (str "#").isPrefixOf u = true
      · rw [h2]
        exact ⟨u, by simp⟩
      · rw [Bool.eq_false_iff.mpr h2]
        by_cases h3 : isImageUrl b u = true
        · rw [h3]
          exact ⟨str "https://nebari.dev/" ++ cleanImg u, by simp⟩
        · rw [Bool.eq_false_iff.mpr h3]
          exact ⟨str "https://nebari.dev/docs/" ++ cleanDocs u, by simp⟩

/-- Witness for C5: the image-classification part applied to a concrete
relative image link. -/
theorem claim_C5_witness :
    replace_link true (str "alt") (str "../img/test.png") =
      (if true then str "!" else []) ++ str "[" ++ str "alt" ++ str "](" ++
        (str "https://nebari.dev/" ++ cleanImg (str "../img/test.png")) ++
        str ")" :=
  claim_C5.2.1 true (str "alt") (str "../img/test.png") (by decide) (by decide)
    (by decide)
